import Mathlib

/-!
Verification development for the per-group state object ("Group Actor") of
the unfair-wheel service, embedded from the TypeScript sources
(`GroupDurableObject` and the domain helpers in `domain/group.ts`).

Modelling conventions used throughout:
* JavaScript numbers that the code keeps integral (version counters,
  `spinsSinceLastWon`, epoch-millisecond timestamps) are modelled as `Int`.
* ISO-8601 timestamp strings are modelled by their epoch-millisecond value
  (`Int`); `Date.parse` of a stored timestamp is the stored value, and a
  `null`/absent timestamp is `Option.none` (so `Number.isFinite` of the
  parse corresponds to `Option.isSome`).
* `Math.random() * totalWeight` is modelled by an explicit draw parameter
  `x : ℚ`; the generated ids (`randomId()`) and chosen durations are
  explicit parameters as well.
* JSON request bodies are modelled by typed structures where an absent
  field is `none` and an explicit `null` is `some none`; type-mismatch
  branches of the handlers (e.g. a non-boolean `manager`) are therefore
  unrepresentable and not modelled.
* JS whitespace (`\s`, `trim`) is modelled by the ASCII whitespace
  characters, and `toLowerCase` by `Char.toLower`.
-/

deriving instance DecidableEq for Except

namespace TheUnfairWheel

/-! ## Domain model (`domain/group.ts`, `domain/realtime.ts`) -/

structure Group where
  id : String
  name : String
  createdAt : Int
  ownerUserId : String
  ownerEmail : String
  ownerParticipantId : String
deriving Repr, DecidableEq

structure Participant where
  id : String
  name : String
  active : Bool
  emailId : Option String
  manager : Bool
  spinsSinceLastWon : Int
deriving Repr, DecidableEq

inductive SpinStatus where
  | idle
  | spinning
deriving Repr, DecidableEq

structure GroupSpinState where
  status : SpinStatus
  spinId : Option String
  startedAt : Option Int
  resolvedAt : Option Int
  winnerParticipantId : Option String
  durationMs : Option Int
  extraTurns : Option Int
deriving Repr, DecidableEq

structure SpinHistoryItem where
  id : String
  createdAt : Int
  participants : List Participant
  winnerParticipantId : String
deriving Repr, DecidableEq

structure GroupState where
  group : Group
  participants : List Participant
  version : Int
  spin : GroupSpinState
  spinHistory : List SpinHistoryItem
  pendingResultSpinId : Option String
  pendingResultCounters : Option (List (String × Int))
  pendingResultExpiresAt : Option Int
deriving Repr, DecidableEq

def DEFAULT_SPIN_STATE : GroupSpinState :=
  { status := .idle, spinId := none, startedAt := none, resolvedAt := none,
    winnerParticipantId := none, durationMs := none, extraTurns := none }

def MAX_SPIN_HISTORY_ITEMS : Nat := 20

def PENDING_RESULT_TTL_MS : Int := 10 * 60 * 1000

/-! ## String helpers (`normalizeName`, `validateName`, `toLowerCase`,
`trim`, the email pattern) -/

/-- ASCII model of the JS whitespace class used by `trim` and `\s`. -/
def isWs (c : Char) : Bool :=
  c = ' ' || c = '\t' || c = '\n' || c = '\r'

/-- `String.prototype.trim`: drop whitespace from both ends. -/
def trimChars (l : List Char) : List Char :=
  ((l.dropWhile isWs).reverse.dropWhile isWs).reverse

/-- `.replace(/\s+/g, " ")`: collapse every whitespace run to one space (a
character of a run emits nothing until the run's last character, which emits
one blank). -/
def collapseWs : List Char → List Char
  | [] => []
  | [c] => [if isWs c then ' ' else c]
  | c :: d :: rest =>
    if isWs c && isWs d then collapseWs (d :: rest)
    else (if isWs c then ' ' else c) :: collapseWs (d :: rest)

/-- `normalizeName` from `domain/group.ts`: `name.trim().replace(/\s+/g, " ")`. -/
def normalizeName (s : String) : String :=
  ⟨collapseWs (trimChars s.data)⟩

/-- `validateName` from `domain/group.ts`: normalized name, nonempty, ≤ 60. -/
def validateName (name : String) : Except String String :=
  let normalized := normalizeName name
  if normalized = "" || normalized.length > 60 then
    .error "Name must be between 1 and 60 characters."
  else
    .ok normalized

/-- `String.prototype.toLowerCase` (ASCII model). -/
def lowerStr (s : String) : String :=
  ⟨s.data.map Char.toLower⟩

/-- `String.prototype.trim` on strings. -/
def jsTrim (s : String) : String :=
  ⟨trimChars s.data⟩

/-- `EMAIL_PATTERN = /^[^\s@]+@[^\s@]+\.[^\s@]+$/`: a nonempty `@`-free,
whitespace-free local part, one `@`, and a domain (no `@`, no whitespace)
containing a dot that is neither its first nor its last character. -/
def emailMatches (s : String) : Bool :=
  let l := s.data
  let localPart := l.takeWhile (fun c => c != '@')
  match l.dropWhile (fun c => c != '@') with
  | [] => false
  | _ :: domain =>
    !localPart.isEmpty && localPart.all (fun c => !isWs c) &&
    !domain.isEmpty && domain.all (fun c => !isWs c && c != '@') &&
    (domain.drop 1).dropLast.contains '.'

/-- `normalizeEmailId`: absent/null → null, empty after trim → null,
pattern-matching trimmed value → that value, otherwise a thrown error. -/
def normalizeEmailId : Option (Option String) → Except String (Option String)
  | none => .ok none
  | some none => .ok none
  | some (some raw) =>
    let trimmed := jsTrim raw
    if trimmed = "" then .ok none
    else if emailMatches trimmed then .ok (some trimmed)
    else .error "emailId must be a valid email address."

/-- `normalizeParticipant`: revalidate the email (trimmed, pattern), force
`manager` false without an email, clamp the counter to a non-negative value. -/
def normalizeParticipant (p : Participant) : Participant :=
  let emailId : Option String :=
    match p.emailId with
    | some raw =>
      let t := jsTrim raw
      if t != "" && emailMatches t then some t else none
    | none => none
  { p with
    emailId := emailId,
    manager := p.manager && emailId.isSome,
    spinsSinceLastWon :=
      if 0 ≤ p.spinsSinceLastWon then p.spinsSinceLastWon else 0 }

def cloneParticipants (ps : List Participant) : List Participant :=
  ps.map normalizeParticipant

/-! ## Weighted selection (`participantWeight`, `pickWeightedWinner`) -/

/-- `participantWeight`: `Math.max(1, spinsSinceLastWon + 1)`. -/
def participantWeight (p : Participant) : Int :=
  max 1 (p.spinsSinceLastWon + 1)

def totalWeight (ps : List Participant) : Int :=
  (ps.map participantWeight).sum

/-- The subtraction loop of `pickWeightedWinner`: subtract each weight from
the running draw and stop at the first participant that makes it negative. -/
def pickLoop : List Participant → ℚ → Option Participant
  | [], _ => none
  | p :: rest, draw =>
    if draw - (participantWeight p : ℚ) < 0 then some p
    else pickLoop rest (draw - (participantWeight p : ℚ))

/-- `pickWeightedWinner`, with the random draw `x = Math.random() * totalWeight`
made explicit: `none` when the total weight is non-positive, otherwise the
loop result, falling back to the last participant. (Over `Int` the
`Number.isFinite` guard of the source is always true.) -/
def pickWeightedWinnerWith (ps : List Participant) (x : ℚ) : Option Participant :=
  if totalWeight ps ≤ 0 then none
  else
    match pickLoop ps x with
    | some p => some p
    | none => ps.getLast?

/-! ## Events, responses (`GroupRealtimeEvent`, `ErrorBody`) -/

/-- A realtime event as broadcast by the actor; `v` is the `version` field of
the envelope. The `snapshot` event is connection-local and not produced by
mutations, so it is not modelled here. A dismissal's `save` flag is `true`
for `action: "save"` and `false` for `action: "discard"`. -/
inductive GEvent where
  | participantAdded (v : Int) (p : Participant)
  | participantUpdated (v : Int) (p : Participant)
  | participantRemoved (v : Int) (pid : String)
  | spinStarted (v : Int) (spin : GroupSpinState)
  | spinResolved (v : Int) (spin : GroupSpinState)
  | spinResultDismissed (v : Int) (spinId : String) (save : Bool)
deriving Repr, DecidableEq

/-- The `version` carried by an event envelope. -/
def GEvent.ver : GEvent → Int
  | .participantAdded v _ => v
  | .participantUpdated v _ => v
  | .participantRemoved v _ => v
  | .spinStarted v _ => v
  | .spinResolved v _ => v
  | .spinResultDismissed v _ _ => v

/-- An error response: HTTP status plus the `{error: message}` body. -/
structure ErrResp where
  status : Nat
  msg : String
deriving Repr, DecidableEq

/-- A successful handler outcome: HTTP status, the state persisted by
`bumpAndSave`/`saveState`, and the events broadcast after saving. -/
structure OpOk where
  status : Nat
  state : GroupState
  events : List GEvent
deriving Repr, DecidableEq

/-- `bumpAndSave`: increment `version` and persist. -/
def bump (s : GroupState) : GroupState :=
  { s with version := s.version + 1 }

/-- Turn a thrown domain error into the `400` the `fetch` catch-block returns. -/
def orErr400 : Except String α → Except ErrResp α
  | .ok a => .ok a
  | .error m => .error ⟨400, m⟩

/-! ## Group Actor operations (`GroupDurableObject.fetch` handlers) -/

/-- `POST /init`. The request body is `{group, ownerParticipant}` (the router
sends both), but the handler reads only `group` and stores an empty roster,
so `ownerParticipant` is ignored. -/
def initGroup (g : Group) (_ownerParticipant : Participant) : Except ErrResp OpOk :=
  match validateName g.name with
  | .error m => .error ⟨400, m⟩
  | .ok groupName =>
    .ok ⟨201,
      { group := { g with name := groupName },
        participants := [],
        version := 0,
        spin := DEFAULT_SPIN_STATE,
        spinHistory := [],
        pendingResultSpinId := none,
        pendingResultCounters := none,
        pendingResultExpiresAt := none },
      []⟩

/-- Request body of `POST /participants`: absent field = `none`,
explicit `null` email = `some none`. -/
structure AddParticipantBody where
  name : Option String := none
  emailId : Option (Option String) := none
  manager : Option Bool := none
deriving Repr, DecidableEq

/-- `POST /participants`. -/
def addParticipant (s : GroupState) (b : AddParticipantBody) (newId : String) :
    Except ErrResp OpOk :=
  match validateName (b.name.getD "") with
  | .error m => .error ⟨400, m⟩
  | .ok name =>
    match normalizeEmailId b.emailId with
    | .error m => .error ⟨400, m⟩
    | .ok emailId =>
      let manager := b.manager == some true
      if manager && emailId.isNone then
        .error ⟨400, "manager requires a valid emailId."⟩
      else if s.participants.any (fun p => lowerStr p.name == lowerStr name) then
        .error ⟨409, "Participant with this name already exists."⟩
      else
        let participant : Participant :=
          { id := newId, name := name, active := true, emailId := emailId,
            manager := manager, spinsSinceLastWon := 0 }
        let s' := bump { s with participants := s.participants ++ [participant] }
        .ok ⟨201, s', [.participantAdded s'.version participant]⟩

/-- Request body of `PATCH /participants/:id`. -/
structure UpdateParticipantBody where
  active : Option Bool := none
  emailId : Option (Option String) := none
  manager : Option Bool := none
deriving Repr, DecidableEq

/-- Replace the first participant whose id is `pid` (the source mutates the
object returned by `Array.prototype.find`). -/
def replaceFirst (ps : List Participant) (pid : String) (q : Participant) :
    List Participant :=
  match ps with
  | [] => []
  | p :: rest => if p.id == pid then q :: rest else p :: replaceFirst rest pid q

/-- `PATCH /participants/:id`. -/
def updateParticipant (s : GroupState) (pid : String) (b : UpdateParticipantBody) :
    Except ErrResp OpOk :=
  if pid = "" then .error ⟨400, "Participant id is required."⟩
  else if b.active.isNone && b.emailId.isNone && b.manager.isNone then
    .error ⟨400, "At least one of active, emailId, or manager must be provided."⟩
  else
    match s.participants.find? (fun p => p.id == pid) with
    | none => .error ⟨404, "Participant not found."⟩
    | some participant =>
      let p1 :=
        match b.active with
        | some a => { participant with active := a }
        | none => participant
      match (match b.emailId with
             | some e => normalizeEmailId (some e)
             | none => .ok p1.emailId : Except String (Option String)) with
      | .error m => .error ⟨400, m⟩
      | .ok emailVal =>
        let p2 := { p1 with emailId := emailVal }
        let p3 :=
          match b.manager with
          | some m => { p2 with manager := m }
          | none => p2
        if p3.manager && p3.emailId.isNone then
          .error ⟨400, "manager requires a valid emailId."⟩
        else
          let p4 := if p3.emailId.isNone then { p3 with manager := false } else p3
          let s' := bump { s with participants := replaceFirst s.participants pid p4 }
          .ok ⟨200, s', [.participantUpdated s'.version p4]⟩

/-- `DELETE /participants/:id`. There is no owner-participant check: any
matching id is removed. -/
def removeParticipant (s : GroupState) (pid : String) : Except ErrResp OpOk :=
  if pid = "" then .error ⟨400, "Participant id is required."⟩
  else
    let remaining := s.participants.filter (fun p => p.id != pid)
    if remaining.length = s.participants.length then
      .error ⟨404, "Participant not found."⟩
    else
      let s' := bump { s with participants := remaining }
      .ok ⟨204, s', [.participantRemoved s'.version pid]⟩

/-- `POST /history/:spinId/save`. -/
def saveSpin (s : GroupState) (spinId : String) : Except ErrResp OpOk :=
  if spinId = "" then .error ⟨400, "Spin id is required."⟩
  else if s.pendingResultSpinId == some spinId then
    let s' := bump { s with pendingResultSpinId := none,
                            pendingResultCounters := none,
                            pendingResultExpiresAt := none }
    .ok ⟨204, s', [.spinResultDismissed s'.version spinId true]⟩
  else
    .ok ⟨204, s, []⟩

/-- Whether the stored pending result has expired at `now`
(`Number.isFinite(t) && t > 0 && t < nowTs` with `t = Date.parse(expiresAt)`). -/
def pendingExpired (s : GroupState) (now : Int) : Bool :=
  match s.pendingResultExpiresAt with
  | some t => 0 < t && t < now
  | none => false

/-- Look a participant id up in the captured counters map. -/
def counterFor (counters : List (String × Int)) (pid : String) : Option Int :=
  (counters.find? (fun e => e.fst == pid)).map (fun e => e.snd)

/-- `DELETE /history/:spinId` (discard). -/
def discardSpin (s : GroupState) (spinId : String) (now : Int) : Except ErrResp OpOk :=
  if spinId = "" then .error ⟨400, "Spin id is required."⟩
  else
    let isPendingExpired := pendingExpired s now
    let hadPendingResult :=
      s.pendingResultSpinId == some spinId && !isPendingExpired &&
        s.pendingResultCounters.isSome
    let counters := s.pendingResultCounters.getD []
    let participants' :=
      if hadPendingResult then
        s.participants.map (fun p =>
          match counterFor counters p.id with
          | some prev => { p with spinsSinceLastWon := max 0 prev }
          | none => p)
      else s.participants
    let reverted : List Participant :=
      if hadPendingResult then
        s.participants.filterMap (fun p =>
          (counterFor counters p.id).map (fun prev =>
            { p with spinsSinceLastWon := max 0 prev }))
      else []
    let history' := s.spinHistory.filter (fun item => item.id != spinId)
    let clearPending := s.pendingResultSpinId == some spinId || isPendingExpired
    let s' := bump
      { s with
        participants := participants',
        spinHistory := history',
        pendingResultSpinId :=
          if clearPending then none else s.pendingResultSpinId,
        pendingResultCounters :=
          if clearPending then none else s.pendingResultCounters,
        pendingResultExpiresAt :=
          if clearPending then none else s.pendingResultExpiresAt }
    let evs :=
      if hadPendingResult then
        reverted.map (fun p => GEvent.participantUpdated s'.version p) ++
          [GEvent.spinResultDismissed s'.version spinId false]
      else []
    .ok ⟨204, s', evs⟩

/-- `POST /spin`: `x` is the random draw, `newSpinId` the generated id,
`durationMs`/`extraTurns` the randomly chosen animation parameters. -/
def requestSpin (s : GroupState) (x : ℚ) (newSpinId : String)
    (durationMs extraTurns now : Int) : Except ErrResp OpOk :=
  if s.spin.status == SpinStatus.spinning then
    .error ⟨409, "A spin is already in progress."⟩
  else
    let eligible := s.participants.filter (fun p => p.active)
    if eligible.length < 2 then
      .error ⟨409, "Need at least 2 active participants to spin."⟩
    else
      match pickWeightedWinnerWith eligible x with
      | none => .error ⟨500, "Unable to resolve winner."⟩
      | some winner =>
        let spin : GroupSpinState :=
          { status := .spinning, spinId := some newSpinId, startedAt := some now,
            resolvedAt := none, winnerParticipantId := some winner.id,
            durationMs := some durationMs, extraTurns := some extraTurns }
        let s' := bump { s with spin := spin }
        .ok ⟨202, s', [.spinStarted s'.version spin]⟩

/-- The per-participant counter update of `resolveSpin`: winner reset to 0,
every other active participant incremented, inactive untouched. -/
def resolveCounterUpdate (winnerId : String) (p : Participant) : Participant :=
  if !p.active then p
  else if p.id == winnerId then { p with spinsSinceLastWon := 0 }
  else { p with spinsSinceLastWon := p.spinsSinceLastWon + 1 }

/-- The deferred `resolveSpin(spinId)` task. It is a silent no-op (no save, no
events) unless the state is still `spinning` with the same spin id and truthy
winner/spin ids. -/
def resolveSpinStep (s : GroupState) (spinId : String) (now : Int) :
    GroupState × List GEvent :=
  if s.spin.status == SpinStatus.spinning && s.spin.spinId == some spinId then
    match s.spin.winnerParticipantId, s.spin.spinId with
    | some w, some c =>
      if w = "" || c = "" then (s, [])
      else
        let spin' := { s.spin with status := .idle, resolvedAt := some now }
        let updatedPs := s.participants.map (resolveCounterUpdate w)
        let previousCounters :=
          (s.participants.filter (fun p => p.active)).map
            (fun p => (p.id, p.spinsSinceLastWon))
        let activeUpdated := updatedPs.filter (fun p => p.active)
        let hist0 := s.spinHistory ++
          [({ id := c, createdAt := now,
              participants := cloneParticipants activeUpdated,
              winnerParticipantId := w } : SpinHistoryItem)]
        let hist' := hist0.drop (hist0.length - MAX_SPIN_HISTORY_ITEMS)
        let v := s.version + 1
        let s' : GroupState :=
          { s with
            spin := spin', participants := updatedPs, spinHistory := hist',
            pendingResultSpinId := some c,
            pendingResultCounters := some previousCounters,
            pendingResultExpiresAt := some (now + PENDING_RESULT_TTL_MS),
            version := v }
        (s', GEvent.spinResolved v spin' ::
          activeUpdated.map (fun p => GEvent.participantUpdated v p))
    | _, _ => (s, [])
  else (s, [])

/-! ## Atomic roster commit (`POST /participants/commit`) -/

structure CommitAddEntry where
  name : Option String := none
  emailId : Option (Option String) := none
  manager : Option Bool := none
deriving Repr, DecidableEq

structure CommitUpdateEntry where
  participantId : Option String := none
  emailId : Option (Option String) := none
  manager : Option Bool := none
deriving Repr, DecidableEq

structure CommitParticipantsBody where
  adds : List CommitAddEntry := []
  updates : List CommitUpdateEntry := []
  removes : List String := []
deriving Repr, DecidableEq

/-- The resolved (email, manager) of a commit update entry. -/
structure ResolvedUpdate where
  pid : String
  emailId : Option String
  manager : Bool
deriving Repr, DecidableEq

def hasParticipantId (ps : List Participant) (pid : String) : Bool :=
  ps.any (fun p => p.id == pid)

/-- The `removes` validation loop: each id a non-empty string naming an
existing participant, no duplicates; `seen` is the `removeSet` built so far
(a JS `Set` iterated in insertion order). -/
def validateRemoves (ps : List Participant) :
    List String → List String → Except ErrResp (List String)
  | [], seen => .ok seen
  | rid :: rest, seen =>
    if rid = "" then
      .error ⟨400, "Each remove id must be a non-empty string."⟩
    else if !hasParticipantId ps rid then
      .error ⟨404, "Participant not found: " ++ rid⟩
    else if seen.contains rid then
      .error ⟨400, "Duplicate remove participant id: " ++ rid⟩
    else
      validateRemoves ps rest (seen ++ [rid])

/-- The `updates` validation loop, building the `updateMap` (insertion
order). Each entry must name an existing participant that is neither removed
nor already updated; its resolved email and manager default to the current
values, and a manager without an email is rejected before the
email-less-implies-not-manager coercion. -/
def validateUpdates (ps : List Participant) (removeSet : List String) :
    List CommitUpdateEntry → List ResolvedUpdate → Except ErrResp (List ResolvedUpdate)
  | [], acc => .ok acc
  | u :: rest, acc =>
    if u.participantId.getD "" = "" then
      .error ⟨400, "Each update participantId must be a non-empty string."⟩
    else if !hasParticipantId ps (u.participantId.getD "") then
      .error ⟨404, "Participant not found: " ++ u.participantId.getD ""⟩
    else if removeSet.contains (u.participantId.getD "") then
      .error ⟨400, "Participant cannot be both updated and removed: " ++
        u.participantId.getD ""⟩
    else if acc.any (fun e => e.pid == u.participantId.getD "") then
      .error ⟨400, "Duplicate update participant id: " ++ u.participantId.getD ""⟩
    else
      match ps.find? (fun p => p.id == u.participantId.getD "") with
      | none => .error ⟨404, "Participant not found: " ++ u.participantId.getD ""⟩
      | some currentParticipant =>
        match (match u.emailId with
               | some e => normalizeEmailId (some e)
               | none => .ok currentParticipant.emailId :
               Except String (Option String)) with
        | .error m => .error ⟨400, m⟩
        | .ok emailId =>
          if u.manager.getD currentParticipant.manager && emailId.isNone then
            .error ⟨400, "manager requires a valid emailId."⟩
          else
            validateUpdates ps removeSet rest
              (acc ++ [{ pid := u.participantId.getD "",
                         emailId := emailId,
                         manager := if emailId.isNone then false
                           else u.manager.getD currentParticipant.manager }])

/-- The `adds` validation loop: validated name must not collide
(case-insensitively) with `names` (surviving names plus earlier adds), and a
manager entry needs an email. `newIds` supplies the generated `randomId()`s. -/
def validateAdds (newIds : List String) :
    List CommitAddEntry → Nat → List String → List Participant →
      Except ErrResp (List Participant)
  | [], _, _, acc => .ok acc
  | a :: rest, i, names, acc =>
    match validateName (a.name.getD "") with
    | .error m => .error ⟨400, m⟩
    | .ok name =>
      if names.contains (lowerStr name) then
        .error ⟨409, "Participant with this name already exists."⟩
      else
        match normalizeEmailId a.emailId with
        | .error m => .error ⟨400, m⟩
        | .ok emailId =>
          if a.manager == some true && emailId.isNone then
            .error ⟨400, "manager requires a valid emailId."⟩
          else
            validateAdds newIds rest (i + 1) (names ++ [lowerStr name])
              (acc ++ [{ id := newIds.getD i "", name := name, active := true,
                         emailId := emailId, manager := a.manager == some true,
                         spinsSinceLastWon := 0 }])

/-- Apply a validated update list to one surviving participant
(`updateMap.get(participant.id)`). -/
def applyResolvedUpdate (updateList : List ResolvedUpdate) (p : Participant) :
    Participant :=
  match updateList.find? (fun e => e.pid == p.id) with
  | some u => { p with emailId := u.emailId, manager := u.manager }
  | none => p

/-- `POST /participants/commit`: validate removes, updates and adds (in that
order, failing the whole request on the first violation), then apply
removes → updates → adds and emit `participant.removed`, `participant.updated`
and `participant.added` events in that order. -/
def commitParticipants (s : GroupState) (b : CommitParticipantsBody)
    (newIds : List String) : Except ErrResp OpOk :=
  match validateRemoves s.participants b.removes [] with
  | .error e => .error e
  | .ok removeSet =>
    match validateUpdates s.participants removeSet b.updates [] with
    | .error e => .error e
    | .ok updateList =>
      let surviving := s.participants.filter (fun p => !removeSet.contains p.id)
      let existingNames := surviving.map (fun p => lowerStr p.name)
      match validateAdds newIds b.adds 0 existingNames [] with
      | .error e => .error e
      | .ok addedParticipants =>
        let participants' :=
          surviving.map (applyResolvedUpdate updateList) ++ addedParticipants
        let s' := bump { s with participants := participants' }
        let evs :=
          removeSet.map (fun pid => GEvent.participantRemoved s'.version pid) ++
          updateList.filterMap (fun u =>
            (participants'.find? (fun p => p.id == u.pid)).map
              (fun p => GEvent.participantUpdated s'.version p)) ++
          addedParticipants.map (fun p => GEvent.participantAdded s'.version p)
        .ok ⟨200, s', evs⟩

/-! ## The operation alphabet and sequencing -/

/-- A Group Actor mutation on an initialized group, with all randomness and
clock reads made explicit. -/
inductive GroupOp where
  | add (b : AddParticipantBody) (newId : String)
  | update (pid : String) (b : UpdateParticipantBody)
  | remove (pid : String)
  | commit (b : CommitParticipantsBody) (newIds : List String)
  | spin (x : ℚ) (newSpinId : String) (durationMs extraTurns now : Int)
  | resolve (spinId : String) (now : Int)
  | save (spinId : String)
  | discard (spinId : String) (now : Int)

/-- The persisted state and broadcast events of a handler result: an error
response persists nothing and broadcasts nothing. -/
def stepResult (s : GroupState) : Except ErrResp OpOk → GroupState × List GEvent
  | .error _ => (s, [])
  | .ok o => (o.state, o.events)

/-- One serialized actor transaction. -/
def applyOp (s : GroupState) : GroupOp → GroupState × List GEvent
  | .add b newId => stepResult s (addParticipant s b newId)
  | .update pid b => stepResult s (updateParticipant s pid b)
  | .remove pid => stepResult s (removeParticipant s pid)
  | .commit b newIds => stepResult s (commitParticipants s b newIds)
  | .spin x newSpinId durationMs extraTurns now =>
    stepResult s (requestSpin s x newSpinId durationMs extraTurns now)
  | .resolve spinId now => resolveSpinStep s spinId now
  | .save spinId => stepResult s (saveSpin s spinId)
  | .discard spinId now => stepResult s (discardSpin s spinId now)

/-- Run a sequence of operations, concatenating the emitted event stream. -/
def runOps (s : GroupState) : List GroupOp → GroupState × List GEvent
  | [] => (s, [])
  | op :: rest =>
    let r := applyOp s op
    let r' := runOps r.1 rest
    (r'.1, r.2 ++ r'.2)

/-! ## Specification-side definitions -/

/-- The selection rule as the specification words it: walk `P` in insertion
order accumulating weights; the winner is the first participant whose
cumulative weight strictly exceeds the draw `x`. -/
def firstCumExceeding : List Participant → ℚ → ℚ → Option Participant
  | [], _, _ => none
  | p :: rest, acc, x =>
    if x < acc + (participantWeight p : ℚ) then some p
    else firstCumExceeding rest (acc + (participantWeight p : ℚ)) x

/-- The case-folded trimmed-and-collapsed form of a participant's name. -/
def nameKey (p : Participant) : String :=
  lowerStr (normalizeName p.name)

/-- The roster invariant maintained by the actor: participant names are
pairwise distinct under case-folded comparison of their trimmed-and-collapsed
forms, every manager has an email, and stored names are kept in
trimmed-and-collapsed form (they all pass through `validateName`). -/
def ParticipantsInv (ps : List Participant) : Prop :=
  (ps.map nameKey).Nodup ∧
  (∀ p ∈ ps, p.manager = true → p.emailId.isSome = true) ∧
  (∀ p ∈ ps, normalizeName p.name = p.name)

/-! ## Concrete fixtures for witnesses and counterexamples -/

def fixtureGroup : Group :=
  { id := "g1", name := "Friday Squad", createdAt := 0, ownerUserId := "u1",
    ownerEmail := "u1@x.com", ownerParticipantId := "P0" }

/-- The owner participant the router sends to `/init`. -/
def fixtureOwner : Participant :=
  { id := "P0", name := "Owner", active := true, emailId := some "u1@x.com",
    manager := true, spinsSinceLastWon := 0 }

def pAda : Participant :=
  { id := "p1", name := "Ada", active := true, emailId := some "ada@x.com",
    manager := true, spinsSinceLastWon := 0 }

def pBen : Participant :=
  { id := "p2", name := "Ben", active := true, emailId := none,
    manager := false, spinsSinceLastWon := 5 }

def pCid : Participant :=
  { id := "p3", name := "Cid", active := false, emailId := none,
    manager := false, spinsSinceLastWon := 2 }

/-- A state with the owner participant present in the roster. -/
def ownerRosterState : GroupState :=
  { group := fixtureGroup, participants := [fixtureOwner, pBen], version := 1,
    spin := DEFAULT_SPIN_STATE, spinHistory := [], pendingResultSpinId := none,
    pendingResultCounters := none, pendingResultExpiresAt := none }

/-- A state mid-spin: spin `"s1"` is spinning with precomputed winner `"p1"`. -/
def spinningFixture : GroupState :=
  { group := fixtureGroup, participants := [pAda, pBen, pCid], version := 3,
    spin := { status := .spinning, spinId := some "s1", startedAt := some 0,
              resolvedAt := none, winnerParticipantId := some "p1",
              durationMs := some 4000, extraTurns := some 6 },
    spinHistory := [], pendingResultSpinId := none,
    pendingResultCounters := none, pendingResultExpiresAt := none }

/-- A state just after spin `"s1"` resolved at `t = 100`: winner `"p1"` reset,
`"p2"` incremented, pending result captured with expiry `600100`. -/
def pendingFixture : GroupState :=
  { group := fixtureGroup,
    participants :=
      [{ pAda with spinsSinceLastWon := 0 },
       { pBen with spinsSinceLastWon := 6 }, pCid],
    version := 4,
    spin := { status := .idle, spinId := some "s1", startedAt := some 0,
              resolvedAt := some 100, winnerParticipantId := some "p1",
              durationMs := some 4000, extraTurns := some 6 },
    spinHistory :=
      [{ id := "s1", createdAt := 100,
         participants :=
           [{ pAda with spinsSinceLastWon := 0 },
            { pBen with spinsSinceLastWon := 6 }],
         winnerParticipantId := "p1" }],
    pendingResultSpinId := some "s1",
    pendingResultCounters := some [("p1", 0), ("p2", 5)],
    pendingResultExpiresAt := some 600100 }

/-- An idle state with no pending result, used for roster-operation fixtures. -/
def idleFixture : GroupState :=
  { group := fixtureGroup, participants := [pAda, pBen], version := 2,
    spin := DEFAULT_SPIN_STATE, spinHistory := [], pendingResultSpinId := none,
    pendingResultCounters := none, pendingResultExpiresAt := none }

/-! ## Lemmas: whitespace normalization is idempotent -/

theorem head?_dropWhile_isWs (l : List Char) (c : Char)
    (h : (l.dropWhile isWs).head? = some c) : isWs c = false := by
  induction l with
  | nil => simp at h
  | cons a rest ih =>
    rw [List.dropWhile_cons] at h
    split at h
    · exact ih h
    · next ha =>
      simp only [List.head?_cons, Option.some.injEq] at h
      subst h
      simpa using ha

theorem getLast?_dropWhile_isWs (l : List Char) (h : l.dropWhile isWs ≠ []) :
    (l.dropWhile isWs).getLast? = l.getLast? := by
  conv_rhs => rw [← List.takeWhile_append_dropWhile (p := isWs) (l := l)]
  rw [List.getLast?_append]
  rcases hl : (l.dropWhile isWs).getLast? with _ | c
  · exact absurd (List.getLast?_eq_none_iff.mp hl) h
  · simp [Option.or]

theorem dropWhile_eq_self_of_head (l : List Char) (p : Char → Bool)
    (h : ∀ c, l.head? = some c → p c = false) : l.dropWhile p = l := by
  cases l with
  | nil => rfl
  | cons a rest =>
    rw [List.dropWhile_cons_of_neg]
    simp [h a rfl]

/-- `collapseWs` is empty only on the empty list. -/
theorem collapseWs_eq_nil_iff (l : List Char) : collapseWs l = [] ↔ l = [] := by
  induction l using collapseWs.induct with
  | case1 => simp [collapseWs]
  | case2 c => simp [collapseWs]
  | case3 c d rest hcd ih =>
    rw [collapseWs, if_pos hcd]
    simp [ih]
  | case4 c d rest hcd ih =>
    rw [collapseWs, if_neg hcd]
    simp

/-- The head of `collapseWs l` is the head of `l`, with a whitespace head
replaced by a blank. -/
theorem head?_collapseWs (l : List Char) :
    (collapseWs l).head? = l.head?.map (fun c => if isWs c then ' ' else c) := by
  induction l using collapseWs.induct with
  | case1 => simp [collapseWs]
  | case2 c => simp [collapseWs]
  | case3 c d rest hcd ih =>
    rw [collapseWs, if_pos hcd]
    rw [ih]
    have hc : isWs c = true := (Bool.and_eq_true_iff.mp hcd).1
    have hd : isWs d = true := (Bool.and_eq_true_iff.mp hcd).2
    simp [hc, hd]
  | case4 c d rest hcd ih =>
    rw [collapseWs, if_neg hcd]
    simp

theorem getLast?_cons_of_ne (a : Char) (l : List Char) (h : l ≠ []) :
    (a :: l).getLast? = l.getLast? := by
  rw [List.getLast?_cons]
  rcases hl : l.getLast? with _ | b
  · exact absurd (List.getLast?_eq_none_iff.mp hl) h
  · rfl

/-- `collapseWs` preserves a non-whitespace head. -/
theorem head?_collapseWs_of_head (l : List Char)
    (h : ∀ c, l.head? = some c → isWs c = false) :
    ∀ c, (collapseWs l).head? = some c → isWs c = false := by
  intro c hc
  rw [head?_collapseWs] at hc
  rcases hh : l.head? with _ | d
  · simp [hh] at hc
  · rw [hh] at hc
    have hd := h d hh
    simp [hd] at hc
    subst hc
    exact hd

/-- Every whitespace character in the output of `collapseWs` is a blank. -/
theorem mem_collapseWs_ws (l : List Char) :
    ∀ c ∈ collapseWs l, isWs c = true → c = ' ' := by
  induction l using collapseWs.induct with
  | case1 => simp [collapseWs]
  | case2 c =>
    intro x hx hws
    rw [collapseWs] at hx
    simp only [List.mem_singleton] at hx
    subst hx
    by_cases hc : isWs c = true
    · simp [hc]
    · rw [if_neg (by simpa using hc)] at hws
      exact absurd hws hc
  | case3 c d rest hcd ih =>
    rw [collapseWs, if_pos hcd]
    exact ih
  | case4 c d rest hcd ih =>
    rw [collapseWs, if_neg hcd]
    intro x hx hws
    rcases List.mem_cons.mp hx with h | h
    · subst h
      by_cases hc : isWs c = true
      · simp [hc]
      · rw [if_neg (by simpa using hc)] at hws
        exact absurd hws hc
    · exact ih x h hws

/-- No two adjacent characters of `collapseWs l` are both whitespace. -/
theorem chain'_collapseWs (l : List Char) :
    List.Chain' (fun a b => ¬(isWs a = true ∧ isWs b = true)) (collapseWs l) := by
  induction l using collapseWs.induct with
  | case1 => simp [collapseWs]
  | case2 c =>
    rw [collapseWs]
    simp
  | case3 c d rest hcd ih =>
    rw [collapseWs, if_pos hcd]
    exact ih
  | case4 c d rest hcd ih =>
    rw [collapseWs, if_neg hcd]
    refine List.chain'_cons'.mpr ⟨?_, ih⟩
    intro y hy
    rw [Option.mem_def, head?_collapseWs] at hy
    simp only [List.head?_cons, Option.map_some'] at hy
    rintro ⟨h1, h2⟩
    by_cases hc : isWs c = true
    · have hd : isWs d = false := by
        rcases Bool.and_eq_false_iff.mp (by simpa using hcd) with h | h
        · exact absurd hc (by simp [h])
        · exact h
      rw [if_neg (by simp [hd])] at hy
      cases hy
      rw [hd] at h2
      exact Bool.false_ne_true h2
    · rw [if_neg (by simpa using hc)] at h1
      exact absurd h1 hc

/-- `collapseWs` preserves a non-whitespace last character. -/
theorem getLast?_collapseWs_trail (l : List Char)
    (h : ∀ c, l.getLast? = some c → isWs c = false) :
    ∀ c, (collapseWs l).getLast? = some c → isWs c = false := by
  induction l using collapseWs.induct with
  | case1 => simp [collapseWs]
  | case2 c =>
    intro x hx
    rw [collapseWs, List.getLast?_singleton] at hx
    have hc : isWs c = false := h c (by simp)
    rw [if_neg (by simp [hc])] at hx
    have hcx : c = x := by simpa using hx
    subst hcx
    exact hc
  | case3 c d rest hcd ih =>
    rw [collapseWs, if_pos hcd]
    refine ih (fun x hx => ?_)
    exact h x (by rw [getLast?_cons_of_ne c _ (by simp)]; exact hx)
  | case4 c d rest hcd ih =>
    intro x hx
    rw [collapseWs, if_neg hcd] at hx
    have hne : collapseWs (d :: rest) ≠ [] := by
      simp [collapseWs_eq_nil_iff]
    rw [getLast?_cons_of_ne _ _ hne] at hx
    refine ih (fun y hy => ?_) x hx
    exact h y (by rw [getLast?_cons_of_ne c _ (by simp)]; exact hy)

/-- On a list whose whitespace is already collapsed (every whitespace char is
a blank and no two adjacent chars are whitespace), `collapseWs` is the
identity. -/
theorem collapseWs_fixed (l : List Char)
    (hblank : ∀ c ∈ l, isWs c = true → c = ' ')
    (hchain : List.Chain' (fun a b => ¬(isWs a = true ∧ isWs b = true)) l) :
    collapseWs l = l := by
  induction l using collapseWs.induct with
  | case1 => rfl
  | case2 c =>
    rw [collapseWs]
    by_cases hc : isWs c = true
    · rw [if_pos hc, hblank c (by simp) hc]
    · rw [if_neg (by simpa using hc)]
  | case3 c d rest hcd ih =>
    have hc : isWs c = true := (Bool.and_eq_true_iff.mp hcd).1
    have hd : isWs d = true := (Bool.and_eq_true_iff.mp hcd).2
    exact absurd ⟨hc, hd⟩ (List.chain'_cons.mp hchain).1
  | case4 c d rest hcd ih =>
    rw [collapseWs, if_neg hcd]
    have htail := (List.chain'_cons.mp hchain).2
    rw [ih (fun x hx hws => hblank x (by simp [hx]) hws) htail]
    by_cases hc : isWs c = true
    · rw [if_pos hc, hblank c (by simp) hc]
    · rw [if_neg (by simpa using hc)]

/-- On a list with no leading and no trailing whitespace, `trimChars` is the
identity. -/
theorem trimChars_fixed (l : List Char)
    (hhead : ∀ c, l.head? = some c → isWs c = false)
    (hlast : ∀ c, l.getLast? = some c → isWs c = false) :
    trimChars l = l := by
  unfold trimChars
  rw [dropWhile_eq_self_of_head l isWs hhead]
  rw [dropWhile_eq_self_of_head l.reverse isWs (fun c hc => hlast c (by
    rwa [List.head?_reverse] at hc))]
  exact List.reverse_reverse l

/-- `trimChars` output has no leading whitespace. -/
theorem trimChars_head (l : List Char) :
    ∀ c, (trimChars l).head? = some c → isWs c = false := by
  intro c hc
  unfold trimChars at hc
  rw [List.head?_reverse] at hc
  set a := l.dropWhile isWs with ha
  by_cases hnil : a.reverse.dropWhile isWs = []
  · simp [hnil] at hc
  · rw [getLast?_dropWhile_isWs _ hnil, List.getLast?_reverse] at hc
    exact head?_dropWhile_isWs l c hc

/-- `trimChars` output has no trailing whitespace. -/
theorem trimChars_last (l : List Char) :
    ∀ c, (trimChars l).getLast? = some c → isWs c = false := by
  intro c hc
  unfold trimChars at hc
  rw [List.getLast?_reverse] at hc
  exact head?_dropWhile_isWs _ c hc

/-- `normalizeName` is idempotent: renormalizing a stored name changes
nothing. -/
theorem normalizeName_idem (s : String) :
    normalizeName (normalizeName s) = normalizeName s := by
  show normalizeName ⟨collapseWs (trimChars s.data)⟩ = ⟨collapseWs (trimChars s.data)⟩
  unfold normalizeName
  set t := collapseWs (trimChars s.data) with ht
  have hhead : ∀ c, t.head? = some c → isWs c = false := by
    intro c hc
    rw [ht, head?_collapseWs] at hc
    rcases hh : (trimChars s.data).head? with _ | d
    · rw [hh] at hc; simp at hc
    · rw [hh] at hc
      have hd := trimChars_head s.data d hh
      simp [hd] at hc
      subst hc
      exact hd
  have hlast : ∀ c, t.getLast? = some c → isWs c = false :=
    getLast?_collapseWs_trail (trimChars s.data) (trimChars_last s.data)
  rw [show (⟨t⟩ : String).data = t from rfl]
  rw [trimChars_fixed t hhead hlast,
    collapseWs_fixed t (mem_collapseWs_ws (trimChars s.data)) (chain'_collapseWs _)]

/-! ## C1 — owner participant existence and protection -/

/-- C1 (code-bug evidence): the spec requires the owner's participant
(`ownerParticipantId`) to always exist as a manager with `ownerEmail` and to
be protected from removal, and the router sends `ownerParticipant` in the
`/init` body and indexes it; but `/init` stores an empty roster (discarding
`ownerParticipant`), and `DELETE /participants/:id` removes the owner's
participant like any other id, answering 204 with the owner gone. -/
theorem c1_owner_participant_not_created_and_not_protected :
    (initGroup fixtureGroup fixtureOwner).map
        (fun o => (o.status, o.state.participants)) = .ok (201, []) ∧
    fixtureOwner.id = fixtureGroup.ownerParticipantId ∧
    fixtureOwner.manager = true ∧
    fixtureOwner.emailId = some fixtureGroup.ownerEmail ∧
    ownerRosterState.participants.map Participant.id =
      [fixtureGroup.ownerParticipantId, "p2"] ∧
    (removeParticipant ownerRosterState fixtureGroup.ownerParticipantId).map
        (fun o => (o.status, o.state.participants.map Participant.id)) =
      .ok (204, ["p2"]) := by
  refine ⟨?_, ?_, ?_, ?_, ?_, ?_⟩ <;> decide

/-! ## C9 — saveSpin idempotence -/

/-- C9: `saveSpin(s)` always answers 204 (for the non-empty spin ids the
route can produce); a second `saveSpin(s)` right after a first one is a pure
no-op (same state, no events, 204); and in general `saveSpin` with a spin id
that does not match the current pending result returns 204 changing nothing
and emitting nothing. -/
theorem c9_saveSpin_idempotent (s : GroupState) (i : String) (hne : i ≠ "") :
    (∃ o, saveSpin s i = .ok o ∧ o.status = 204 ∧
       saveSpin o.state i = .ok ⟨204, o.state, []⟩) ∧
    (s.pendingResultSpinId ≠ some i → saveSpin s i = .ok ⟨204, s, []⟩) := by
  have hmiss : ∀ t : GroupState, t.pendingResultSpinId ≠ some i →
      saveSpin t i = .ok ⟨204, t, []⟩ := by
    intro t ht
    unfold saveSpin
    rw [if_neg hne, if_neg (by simpa using ht)]
  constructor
  · unfold saveSpin
    rw [if_neg hne]
    by_cases hp : s.pendingResultSpinId = some i
    · rw [if_pos (by simpa using hp)]
      refine ⟨_, rfl, rfl, ?_⟩
      exact hmiss _ (by simp [bump])
    · rw [if_neg (by simpa using hp)]
      exact ⟨_, rfl, rfl, hmiss s hp⟩
  · exact hmiss s

/-- C9 witness at a concrete pending state. -/
theorem c9_saveSpin_idempotent_witness :
    (∃ o, saveSpin pendingFixture "s1" = .ok o ∧ o.status = 204 ∧
       saveSpin o.state "s1" = .ok ⟨204, o.state, []⟩) ∧
    (pendingFixture.pendingResultSpinId ≠ some "s1" →
       saveSpin pendingFixture "s1" = .ok ⟨204, pendingFixture, []⟩) :=
  c9_saveSpin_idempotent pendingFixture "s1" (by decide)

/-! ## C10 — discardSpin on an unknown spin id -/

/-- C10 (amended): `discardSpin` with a spin id matching neither the pending
result nor any history entry answers 204, emits no events, leaves group,
participants, spin and history unchanged, yet still increments the version
and persists. The pending-result fields are also unchanged — unless a stored
pending result (for a different spin) has expired, in which case they are
cleared as a side effect. -/
theorem c10_discard_unknown_spin_frame (s : GroupState) (i : String) (now : Int)
    (h1 : i ≠ "") (h2 : s.pendingResultSpinId ≠ some i)
    (h3 : ∀ item ∈ s.spinHistory, item.id ≠ i) :
    ∃ o, discardSpin s i now = .ok o ∧ o.status = 204 ∧ o.events = [] ∧
      o.state.group = s.group ∧ o.state.participants = s.participants ∧
      o.state.spin = s.spin ∧ o.state.spinHistory = s.spinHistory ∧
      o.state.version = s.version + 1 ∧
      (pendingExpired s now = false →
        o.state.pendingResultSpinId = s.pendingResultSpinId ∧
        o.state.pendingResultCounters = s.pendingResultCounters ∧
        o.state.pendingResultExpiresAt = s.pendingResultExpiresAt) ∧
      (pendingExpired s now = true →
        o.state.pendingResultSpinId = none ∧
        o.state.pendingResultCounters = none ∧
        o.state.pendingResultExpiresAt = none) := by
  have hbeq : (s.pendingResultSpinId == some i) = false := by
    simpa using h2
  have hfilter : s.spinHistory.filter (fun item => item.id != i) = s.spinHistory := by
    refine List.filter_eq_self.mpr (fun a ha => ?_)
    simpa using h3 a ha
  unfold discardSpin
  rw [if_neg h1]
  simp only [hbeq, Bool.false_and, Bool.false_or, hfilter]
  refine ⟨_, rfl, rfl, by simp, rfl, rfl, rfl, rfl, by simp [bump], ?_, ?_⟩
  · intro hexp
    simp [bump, hexp]
  · intro hexp
    simp [bump, hexp]

/-- C10 witness: a concrete unexpired-pending state and an unknown spin id. -/
theorem c10_discard_unknown_spin_frame_witness :
    ∃ o, discardSpin pendingFixture "zzz" 200 = .ok o ∧ o.status = 204 ∧
      o.events = [] ∧
      o.state.group = pendingFixture.group ∧
      o.state.participants = pendingFixture.participants ∧
      o.state.spin = pendingFixture.spin ∧
      o.state.spinHistory = pendingFixture.spinHistory ∧
      o.state.version = pendingFixture.version + 1 ∧
      (pendingExpired pendingFixture 200 = false →
        o.state.pendingResultSpinId = pendingFixture.pendingResultSpinId ∧
        o.state.pendingResultCounters = pendingFixture.pendingResultCounters ∧
        o.state.pendingResultExpiresAt = pendingFixture.pendingResultExpiresAt) ∧
      (pendingExpired pendingFixture 200 = true →
        o.state.pendingResultSpinId = none ∧
        o.state.pendingResultCounters = none ∧
        o.state.pendingResultExpiresAt = none) :=
  c10_discard_unknown_spin_frame pendingFixture "zzz" 200 (by decide) (by decide)
    (by decide)

/-- C10 counterexample: with an expired pending result stored for spin
`"s1"`, discarding the unknown spin id `"zzz"` (matching neither the pending
result nor any history entry) clears the pending-result fields, so they are
not left unchanged as the claim states. -/
theorem c10_discard_clears_expired_pending_counterexample :
    pendingFixture.pendingResultSpinId = some "s1" ∧
    pendingFixture.spinHistory.all (fun item => item.id != "zzz") = true ∧
    (discardSpin pendingFixture "zzz" 999999999).toOption.map
        (fun o => (o.status, o.events.length)) = some (204, 0) ∧
    (discardSpin pendingFixture "zzz" 999999999).toOption.map
        (fun o => o.state.pendingResultSpinId) = some none ∧
    (discardSpin pendingFixture "zzz" 999999999).toOption.map
        (fun o => o.state.pendingResultCounters) = some none := by
  refine ⟨?_, ?_, ?_, ?_, ?_⟩ <;> decide

/-! ## C2 — resolveSpin counter arithmetic -/

/-- C2: when `resolveSpin` fires for the current spinning spin with
precomputed winner `w`, the roster becomes the pointwise counter update in
which every active non-winner is incremented by exactly 1, the winner (if
active) is reset to 0, and inactive participants are untouched (all other
fields unchanged). -/
theorem c2_resolveSpin_counter_update (s : GroupState) (i w : String) (now : Int)
    (h1 : s.spin.status = SpinStatus.spinning) (h2 : s.spin.spinId = some i)
    (h3 : s.spin.winnerParticipantId = some w) (h4 : i ≠ "") (h5 : w ≠ "") :
    (resolveSpinStep s i now).1.participants =
      s.participants.map (resolveCounterUpdate w) ∧
    ∀ p : Participant,
      (p.active = false → resolveCounterUpdate w p = p) ∧
      (p.active = true → p.id = w →
        resolveCounterUpdate w p = { p with spinsSinceLastWon := 0 }) ∧
      (p.active = true → p.id ≠ w →
        resolveCounterUpdate w p =
          { p with spinsSinceLastWon := p.spinsSinceLastWon + 1 }) := by
  constructor
  · unfold resolveSpinStep
    rw [if_pos (by simp [h1, h2]), h3, h2]
    simp [h4, h5]
  · intro p
    refine ⟨?_, ?_, ?_⟩
    · intro hp
      unfold resolveCounterUpdate
      rw [if_pos (by simp [hp])]
    · intro hp hw
      unfold resolveCounterUpdate
      rw [if_neg (by simp [hp]), if_pos (by simp [hw])]
    · intro hp hw
      unfold resolveCounterUpdate
      rw [if_neg (by simp [hp]), if_neg (by simp [hw])]

/-- C2 witness at the concrete mid-spin state. -/
theorem c2_resolveSpin_counter_update_witness :
    (resolveSpinStep spinningFixture "s1" 100).1.participants =
      spinningFixture.participants.map (resolveCounterUpdate "p1") ∧
    ∀ p : Participant,
      (p.active = false → resolveCounterUpdate "p1" p = p) ∧
      (p.active = true → p.id = "p1" →
        resolveCounterUpdate "p1" p = { p with spinsSinceLastWon := 0 }) ∧
      (p.active = true → p.id ≠ "p1" →
        resolveCounterUpdate "p1" p =
          { p with spinsSinceLastWon := p.spinsSinceLastWon + 1 }) :=
  c2_resolveSpin_counter_update spinningFixture "s1" "p1" 100 rfl rfl rfl
    (by decide) (by decide)

/-! ## C3 — weighted selection picks the first cumulative-weight exceeder -/

theorem pickLoop_eq_firstCumExceeding (ps : List Participant) :
    ∀ acc x : ℚ, pickLoop ps (x - acc) = firstCumExceeding ps acc x := by
  induction ps with
  | nil => intro acc x; rfl
  | cons p rest ih =>
    intro acc x
    rw [pickLoop, firstCumExceeding]
    by_cases h : x < acc + (participantWeight p : ℚ)
    · rw [if_pos (by linarith), if_pos h]
    · rw [if_neg (by intro hc; exact h (by linarith)), if_neg h]
      have harr : x - acc - (participantWeight p : ℚ) =
          x - (acc + (participantWeight p : ℚ)) := by ring
      rw [harr]
      exact ih (acc + (participantWeight p : ℚ)) x

theorem totalWeight_cons (p : Participant) (ps : List Participant) :
    totalWeight (p :: ps) = participantWeight p + totalWeight ps := by
  simp [totalWeight]

theorem firstCumExceeding_mem (ps : List Participant) :
    ∀ acc x : ℚ, acc ≤ x → x < acc + (totalWeight ps : ℚ) →
      ∃ p ∈ ps, firstCumExceeding ps acc x = some p := by
  induction ps with
  | nil =>
    intro acc x hle hlt
    simp [totalWeight] at hlt
    exact absurd hlt (not_lt.mpr hle)
  | cons p rest ih =>
    intro acc x hle hlt
    rw [firstCumExceeding]
    by_cases h : x < acc + (participantWeight p : ℚ)
    · exact ⟨p, by simp, by rw [if_pos h]⟩
    · rw [if_neg h]
      push_neg at h
      have hlt' : x < (acc + (participantWeight p : ℚ)) + (totalWeight rest : ℚ) := by
        rw [totalWeight_cons] at hlt
        push_cast at hlt
        linarith
      obtain ⟨q, hq, heq⟩ := ih (acc + (participantWeight p : ℚ)) x h hlt'
      exact ⟨q, by simp [hq], heq⟩

/-- C3: for a draw `0 ≤ x < W`, `pickWeightedWinner` returns exactly the
first participant (in insertion order) whose cumulative weight strictly
exceeds `x` — so a draw equal to a cumulative boundary goes to the
next-inserted participant, matching "first strictly exceeding" — and the
result is a member of the input list. -/
theorem c3_pick_first_cumulative_exceeding (ps : List Participant) (x : ℚ)
    (h0 : 0 ≤ x) (h1 : x < (totalWeight ps : ℚ)) :
    pickWeightedWinnerWith ps x = firstCumExceeding ps 0 x ∧
    ∃ p ∈ ps, pickWeightedWinnerWith ps x = some p := by
  have hW : 0 < totalWeight ps := by
    by_contra hle
    push_neg at hle
    have hq : (totalWeight ps : ℚ) ≤ 0 := by exact_mod_cast hle
    linarith
  obtain ⟨p, hp, hfceq⟩ :=
    firstCumExceeding_mem ps 0 x h0 (by simpa using h1)
  have hloop : pickLoop ps x = firstCumExceeding ps 0 x := by
    have h := pickLoop_eq_firstCumExceeding ps 0 x
    simpa using h
  have hmain : pickWeightedWinnerWith ps x = firstCumExceeding ps 0 x := by
    unfold pickWeightedWinnerWith
    rw [if_neg (not_le.mpr hW), hloop, hfceq]
  exact ⟨hmain, p, hp, by rw [hmain, hfceq]⟩

/-- C3 witness: counters `[0, 5]` give weights `[1, 6]`; the boundary draw
`x = 1` goes to the second participant (cumulative `1` does not strictly
exceed `1`), and the result is in the list. -/
theorem c3_pick_first_cumulative_exceeding_witness :
    pickWeightedWinnerWith [pAda, pBen] 1 = firstCumExceeding [pAda, pBen] 0 1 ∧
    ∃ p ∈ [pAda, pBen], pickWeightedWinnerWith [pAda, pBen] 1 = some p :=
  c3_pick_first_cumulative_exceeding [pAda, pBen] 1 (by norm_num)
    (by rw [show totalWeight [pAda, pBen] = 7 from by decide]; norm_num)

/-! ## C8 — degenerate weights are unreachable -/

theorem totalWeight_ge_length (ps : List Participant) :
    (ps.length : Int) ≤ totalWeight ps := by
  induction ps with
  | nil => simp [totalWeight]
  | cons p rest ih =>
    rw [totalWeight_cons]
    have h1 : (1 : Int) ≤ participantWeight p := le_max_left _ _
    simp only [List.length_cons]
    push_cast
    linarith

theorem pickWeightedWinnerWith_isSome (ps : List Participant) (x : ℚ)
    (hW : 0 < totalWeight ps) (hne : ps ≠ []) :
    (pickWeightedWinnerWith ps x).isSome = true := by
  unfold pickWeightedWinnerWith
  rw [if_neg (not_le.mpr hW)]
  rcases h : pickLoop ps x with _ | p
  · simpa [List.getLast?_isSome] using hne
  · rfl

/-- C8: with every `spinsSinceLastWon` a non-negative integer (the
data-model invariant enforced by `normalizeParticipant` on every load) and
at least 2 active participants, the total weight is at least 2,
`pickWeightedWinner` never returns null for any draw, and `requestSpin`
never reaches its 500 "Unable to resolve winner." branch. -/
theorem c8_internal_error_unreachable (s : GroupState)
    (hc : ∀ p ∈ s.participants, 0 ≤ p.spinsSinceLastWon)
    (h2 : 2 ≤ (s.participants.filter (fun p => p.active)).length) :
    2 ≤ totalWeight (s.participants.filter (fun p => p.active)) ∧
    (∀ x : ℚ,
      (pickWeightedWinnerWith (s.participants.filter (fun p => p.active)) x).isSome
        = true) ∧
    ∀ (x : ℚ) (newSpinId : String) (durationMs extraTurns now : Int),
      requestSpin s x newSpinId durationMs extraTurns now ≠
        .error ⟨500, "Unable to resolve winner."⟩ := by
  set eligible := s.participants.filter (fun p => p.active) with helig
  have hlen : (2 : Int) ≤ (eligible.length : Int) := by exact_mod_cast h2
  have hW2 : 2 ≤ totalWeight eligible :=
    le_trans hlen (totalWeight_ge_length eligible)
  have hWpos : 0 < totalWeight eligible := by linarith
  have hne : eligible ≠ [] := by
    intro h
    rw [h] at h2
    simp at h2
  refine ⟨hW2, fun x => pickWeightedWinnerWith_isSome eligible x hWpos hne, ?_⟩
  intro x newSpinId durationMs extraTurns now
  unfold requestSpin
  by_cases hspin : (s.spin.status == SpinStatus.spinning) = true
  · rw [if_pos hspin]
    intro h
    cases h
  · rw [if_neg hspin, if_neg (by simpa using not_lt.mpr h2), ← helig]
    rcases hpick : pickWeightedWinnerWith eligible x with _ | winner
    · have := pickWeightedWinnerWith_isSome eligible x hWpos hne
      rw [hpick] at this
      cases this
    · intro h
      cases h

/-- C8 witness at a concrete two-active-participant state. -/
theorem c8_internal_error_unreachable_witness :
    2 ≤ totalWeight (idleFixture.participants.filter (fun p => p.active)) ∧
    (∀ x : ℚ,
      (pickWeightedWinnerWith (idleFixture.participants.filter (fun p => p.active)) x).isSome
        = true) ∧
    ∀ (x : ℚ) (newSpinId : String) (durationMs extraTurns now : Int),
      requestSpin idleFixture x newSpinId durationMs extraTurns now ≠
        .error ⟨500, "Unable to resolve winner."⟩ :=
  c8_internal_error_unreachable idleFixture (by decide) (by decide)

/-! ## C4 — discardSpin reverts counters from the captured map -/

theorem counterFor_nonneg (cs : List (String × Int)) (pid : String) (prev : Int)
    (h3 : ∀ e ∈ cs, 0 ≤ e.snd) (hcf : counterFor cs pid = some prev) :
    0 ≤ prev := by
  unfold counterFor at hcf
  rcases hfind : cs.find? (fun e => e.fst == pid) with _ | e
  · rw [hfind] at hcf
    exact absurd hcf (by simp)
  · rw [hfind] at hcf
    have he : e.snd = prev := by simpa using hcf
    exact he ▸ h3 e (List.mem_of_find?_eq_some hfind)

/-- C4: `discardSpin(s)` on a matching, unexpired pending result restores
`spinsSinceLastWon` to the exact value recorded in `PendingResult.counters`
for every roster participant listed there (others untouched), removes the
history entry with id `s`, and clears the pending result; if the pending
result has expired, it removes the history entry only — participants are
unchanged and no event (in particular no `spin.result.dismissed`) is
emitted. -/
theorem c4_discardSpin_pending_revert (s : GroupState) (i : String) (now : Int)
    (cs : List (String × Int))
    (h1 : s.pendingResultSpinId = some i)
    (h2 : s.pendingResultCounters = some cs)
    (h3 : ∀ e ∈ cs, 0 ≤ e.snd)
    (h4 : i ≠ "") :
    (pendingExpired s now = false →
      ∃ o, discardSpin s i now = .ok o ∧ o.status = 204 ∧
        o.state.participants = s.participants.map (fun p =>
          match counterFor cs p.id with
          | some prev => { p with spinsSinceLastWon := prev }
          | none => p) ∧
        o.state.spinHistory = s.spinHistory.filter (fun item => item.id != i) ∧
        (∀ item ∈ o.state.spinHistory, item.id ≠ i) ∧
        o.state.pendingResultSpinId = none ∧
        o.state.pendingResultCounters = none ∧
        o.state.pendingResultExpiresAt = none) ∧
    (pendingExpired s now = true →
      ∃ o, discardSpin s i now = .ok o ∧ o.status = 204 ∧
        o.state.participants = s.participants ∧
        o.state.spinHistory = s.spinHistory.filter (fun item => item.id != i) ∧
        o.events = []) := by
  have hbeq : (s.pendingResultSpinId == some i) = true := by simp [h1]
  have hmax : s.participants.map (fun p =>
      match counterFor cs p.id with
      | some prev => { p with spinsSinceLastWon := max 0 prev }
      | none => p) = s.participants.map (fun p =>
      match counterFor cs p.id with
      | some prev => { p with spinsSinceLastWon := prev }
      | none => p) := by
    refine List.map_congr_left (fun p hp => ?_)
    rcases hcf : counterFor cs p.id with _ | prev
    · rfl
    · have hge := counterFor_nonneg cs p.id prev h3 hcf
      simp [max_eq_right hge]
  constructor
  · intro hexp
    unfold discardSpin
    rw [if_neg h4]
    simp only [hbeq, hexp, h2]
    refine ⟨_, rfl, rfl, ?_, rfl, ?_, rfl, rfl, rfl⟩
    · exact hmax
    · intro item hmem
      have hm2 : item ∈ s.spinHistory.filter (fun it => it.id != i) := hmem
      rw [List.mem_filter] at hm2
      simpa using hm2.2
  · intro hexp
    unfold discardSpin
    rw [if_neg h4]
    simp only [hbeq, hexp]
    exact ⟨_, rfl, rfl, rfl, rfl, rfl⟩

/-- C4 witness: the concrete post-resolve state, discarded before expiry. -/
theorem c4_discardSpin_pending_revert_witness :
    (pendingExpired pendingFixture 200 = false →
      ∃ o, discardSpin pendingFixture "s1" 200 = .ok o ∧ o.status = 204 ∧
        o.state.participants = pendingFixture.participants.map (fun p =>
          match counterFor [("p1", 0), ("p2", 5)] p.id with
          | some prev => { p with spinsSinceLastWon := prev }
          | none => p) ∧
        o.state.spinHistory =
          pendingFixture.spinHistory.filter (fun item => item.id != "s1") ∧
        (∀ item ∈ o.state.spinHistory, item.id ≠ "s1") ∧
        o.state.pendingResultSpinId = none ∧
        o.state.pendingResultCounters = none ∧
        o.state.pendingResultExpiresAt = none) ∧
    (pendingExpired pendingFixture 200 = true →
      ∃ o, discardSpin pendingFixture "s1" 200 = .ok o ∧ o.status = 204 ∧
        o.state.participants = pendingFixture.participants ∧
        o.state.spinHistory =
          pendingFixture.spinHistory.filter (fun item => item.id != "s1") ∧
        o.events = []) :=
  c4_discardSpin_pending_revert pendingFixture "s1" 200 [("p1", 0), ("p2", 5)]
    rfl rfl (by decide) (by decide)

/-! ## C5 — versioning: one bump per transaction, events share it -/

theorem addParticipant_ok_version (s : GroupState) (b : AddParticipantBody)
    (newId : String) (o : OpOk) (h : addParticipant s b newId = .ok o) :
    o.state.version = s.version + 1 ∧ ∀ e ∈ o.events, e.ver = o.state.version := by
  unfold addParticipant at h
  simp only [] at h
  repeat' split at h
  all_goals cases h
  all_goals refine ⟨rfl, ?_⟩
  all_goals intro e he
  all_goals simp only [List.mem_singleton] at he
  all_goals subst he
  all_goals rfl

theorem updateParticipant_ok_version (s : GroupState) (pid : String)
    (b : UpdateParticipantBody) (o : OpOk) (h : updateParticipant s pid b = .ok o) :
    o.state.version = s.version + 1 ∧ ∀ e ∈ o.events, e.ver = o.state.version := by
  unfold updateParticipant at h
  simp only [] at h
  repeat' split at h
  all_goals cases h
  all_goals refine ⟨rfl, ?_⟩
  all_goals intro e he
  all_goals simp only [List.mem_singleton] at he
  all_goals subst he
  all_goals rfl

theorem removeParticipant_ok_version (s : GroupState) (pid : String)
    (o : OpOk) (h : removeParticipant s pid = .ok o) :
    o.state.version = s.version + 1 ∧ ∀ e ∈ o.events, e.ver = o.state.version := by
  unfold removeParticipant at h
  simp only [] at h
  repeat' split at h
  all_goals cases h
  all_goals refine ⟨rfl, ?_⟩
  all_goals intro e he
  all_goals simp only [List.mem_singleton] at he
  all_goals subst he
  all_goals rfl

theorem saveSpin_ok_version (s : GroupState) (i : String)
    (o : OpOk) (h : saveSpin s i = .ok o) :
    (o.state = s ∧ o.events = []) ∨
      (o.state.version = s.version + 1 ∧ ∀ e ∈ o.events, e.ver = o.state.version) := by
  unfold saveSpin at h
  simp only [] at h
  repeat' split at h
  all_goals cases h
  all_goals first
    | exact Or.inl ⟨rfl, rfl⟩
    | (refine Or.inr ⟨rfl, ?_⟩
       intro e he
       simp only [List.mem_singleton] at he
       subst he
       rfl)

theorem discardSpin_ok_version (s : GroupState) (i : String) (now : Int)
    (o : OpOk) (h : discardSpin s i now = .ok o) :
    o.state.version = s.version + 1 ∧ ∀ e ∈ o.events, e.ver = o.state.version := by
  unfold discardSpin at h
  simp only [] at h
  repeat' split at h
  all_goals cases h
  all_goals refine ⟨rfl, ?_⟩
  all_goals intro e he
  all_goals first
    | (rcases List.mem_append.mp he with hm | hm
       · obtain ⟨p, hp, hpe⟩ := List.mem_map.mp hm
         subst hpe
         rfl
       · simp only [List.mem_singleton] at hm
         subst hm
         rfl)
    | simp at he

theorem requestSpin_ok_version (s : GroupState) (x : ℚ) (newSpinId : String)
    (durationMs extraTurns now : Int) (o : OpOk)
    (h : requestSpin s x newSpinId durationMs extraTurns now = .ok o) :
    o.state.version = s.version + 1 ∧ ∀ e ∈ o.events, e.ver = o.state.version := by
  unfold requestSpin at h
  simp only [] at h
  repeat' split at h
  all_goals cases h
  all_goals refine ⟨rfl, ?_⟩
  all_goals intro e he
  all_goals simp only [List.mem_singleton] at he
  all_goals subst he
  all_goals rfl

theorem commitParticipants_ok_version (s : GroupState)
    (b : CommitParticipantsBody) (newIds : List String) (o : OpOk)
    (h : commitParticipants s b newIds = .ok o) :
    o.state.version = s.version + 1 ∧ ∀ e ∈ o.events, e.ver = o.state.version := by
  unfold commitParticipants at h
  simp only [] at h
  repeat' split at h
  all_goals cases h
  all_goals refine ⟨rfl, ?_⟩
  all_goals intro e he
  all_goals
    rcases List.mem_append.mp he with hm | hm
  · rcases List.mem_append.mp hm with hm2 | hm2
    · obtain ⟨pid, hp, hpe⟩ := List.mem_map.mp hm2
      subst hpe
      rfl
    · obtain ⟨u, hu, hue⟩ := List.mem_filterMap.mp hm2
      obtain ⟨p, hfind, hpe⟩ := Option.map_eq_some'.mp hue
      subst hpe
      rfl
  · obtain ⟨p, hp, hpe⟩ := List.mem_map.mp hm
    subst hpe
    rfl

theorem resolveSpinStep_version (s : GroupState) (i : String) (now : Int) :
    ((resolveSpinStep s i now).1 = s ∧ (resolveSpinStep s i now).2 = []) ∨
      ((resolveSpinStep s i now).1.version = s.version + 1 ∧
        ∀ e ∈ (resolveSpinStep s i now).2, e.ver = (resolveSpinStep s i now).1.version) := by
  unfold resolveSpinStep
  split
  · split
    · split
      · exact Or.inl ⟨rfl, rfl⟩
      · refine Or.inr ⟨rfl, ?_⟩
        intro e he
        rcases List.mem_cons.mp he with hm | hm
        · subst hm
          rfl
        · obtain ⟨p, hp, hpe⟩ := List.mem_map.mp hm
          subst hpe
          rfl
    · exact Or.inl ⟨rfl, rfl⟩
  · exact Or.inl ⟨rfl, rfl⟩

/-- The per-transaction dichotomy: every operation either changes nothing and
emits nothing, or bumps the version by exactly one and stamps every emitted
event with the new version. -/
theorem applyOp_cases (s : GroupState) (op : GroupOp) :
    ((applyOp s op).1 = s ∧ (applyOp s op).2 = []) ∨
      ((applyOp s op).1.version = s.version + 1 ∧
        ∀ e ∈ (applyOp s op).2, e.ver = (applyOp s op).1.version) := by
  cases op with
  | add b newId =>
    rcases hr : addParticipant s b newId with e | o
    · exact Or.inl (by simp [applyOp, stepResult, hr])
    · have hv := addParticipant_ok_version s b newId o hr
      exact Or.inr (by simpa [applyOp, stepResult, hr] using hv)
  | update pid b =>
    rcases hr : updateParticipant s pid b with e | o
    · exact Or.inl (by simp [applyOp, stepResult, hr])
    · have hv := updateParticipant_ok_version s pid b o hr
      exact Or.inr (by simpa [applyOp, stepResult, hr] using hv)
  | remove pid =>
    rcases hr : removeParticipant s pid with e | o
    · exact Or.inl (by simp [applyOp, stepResult, hr])
    · have hv := removeParticipant_ok_version s pid o hr
      exact Or.inr (by simpa [applyOp, stepResult, hr] using hv)
  | commit b newIds =>
    rcases hr : commitParticipants s b newIds with e | o
    · exact Or.inl (by simp [applyOp, stepResult, hr])
    · have hv := commitParticipants_ok_version s b newIds o hr
      exact Or.inr (by simpa [applyOp, stepResult, hr] using hv)
  | spin x newSpinId durationMs extraTurns now =>
    rcases hr : requestSpin s x newSpinId durationMs extraTurns now with e | o
    · exact Or.inl (by simp [applyOp, stepResult, hr])
    · have hv := requestSpin_ok_version s x newSpinId durationMs extraTurns now o hr
      exact Or.inr (by simpa [applyOp, stepResult, hr] using hv)
  | resolve i now =>
    have hv := resolveSpinStep_version s i now
    simpa [applyOp] using hv
  | save i =>
    rcases hr : saveSpin s i with e | o
    · exact Or.inl (by simp [applyOp, stepResult, hr])
    · rcases saveSpin_ok_version s i o hr with hno | hv
      · exact Or.inl (by simp [applyOp, stepResult, hr, hno.1, hno.2])
      · exact Or.inr (by simpa [applyOp, stepResult, hr] using hv)
  | discard i now =>
    rcases hr : discardSpin s i now with e | o
    · exact Or.inl (by simp [applyOp, stepResult, hr])
    · have hv := discardSpin_ok_version s i now o hr
      exact Or.inr (by simpa [applyOp, stepResult, hr] using hv)

theorem applyOp_version_mono (s : GroupState) (op : GroupOp) :
    s.version ≤ (applyOp s op).1.version := by
  rcases applyOp_cases s op with ⟨hs, -⟩ | ⟨hv, -⟩
  · rw [hs]
  · rw [hv]
    linarith

theorem applyOp_events_ver (s : GroupState) (op : GroupOp) :
    ∀ e ∈ (applyOp s op).2,
      e.ver = (applyOp s op).1.version ∧ e.ver = s.version + 1 := by
  intro e he
  rcases applyOp_cases s op with ⟨-, hevs⟩ | ⟨hv, hevs⟩
  · rw [hevs] at he
    cases he
  · exact ⟨hevs e he, by rw [hevs e he, hv]⟩

theorem runOps_version_mono (s : GroupState) (ops : List GroupOp) :
    s.version ≤ (runOps s ops).1.version := by
  induction ops generalizing s with
  | nil => exact le_refl _
  | cons op rest ih =>
    calc s.version ≤ (applyOp s op).1.version := applyOp_version_mono s op
      _ ≤ (runOps (applyOp s op).1 rest).1.version := ih _

theorem runOps_events_ver_gt (s : GroupState) (ops : List GroupOp) :
    ∀ e ∈ (runOps s ops).2, s.version < e.ver := by
  induction ops generalizing s with
  | nil =>
    intro e he
    simp [runOps] at he
  | cons op rest ih =>
    intro e he
    have he2 : e ∈ (applyOp s op).2 ++ (runOps (applyOp s op).1 rest).2 := he
    rcases List.mem_append.mp he2 with hm | hm
    · have := (applyOp_events_ver s op e hm).2
      omega
    · have h1 := ih (applyOp s op).1 e hm
      have h2 := applyOp_version_mono s op
      omega

theorem pairwise_le_of_const (l : List GEvent) (v : Int)
    (h : ∀ e ∈ l, e.ver = v) :
    List.Pairwise (fun a b => a.ver ≤ b.ver) l := by
  induction l with
  | nil => exact List.Pairwise.nil
  | cons a rest ih =>
    refine List.Pairwise.cons ?_ (ih (fun e he => h e (by simp [he])))
    intro b hb
    rw [h a (by simp), h b (by simp [hb])]

theorem runOps_events_sorted (s : GroupState) (ops : List GroupOp) :
    List.Pairwise (fun a b => a.ver ≤ b.ver) (runOps s ops).2 := by
  induction ops generalizing s with
  | nil => exact List.Pairwise.nil
  | cons op rest ih =>
    have hsplit : (runOps s (op :: rest)).2 =
        (applyOp s op).2 ++ (runOps (applyOp s op).1 rest).2 := rfl
    rw [hsplit]
    refine List.pairwise_append.mpr ⟨?_, ih _, ?_⟩
    · exact pairwise_le_of_const _ ((applyOp s op).1.version)
        (fun e he => (applyOp_events_ver s op e he).1)
    · intro a ha b hb
      have h1 : a.ver = s.version + 1 := (applyOp_events_ver s op a ha).2
      have h2 : (applyOp s op).1.version < b.ver :=
        runOps_events_ver_gt (applyOp s op).1 rest b hb
      have h3 : a.ver = (applyOp s op).1.version := (applyOp_events_ver s op a ha).1
      omega

/-- C5 (amended): the version counter is bumped exactly once per
state-changing transaction, not once per event — every operation on an
initialized group either changes nothing and emits nothing, or increments
`version` by exactly 1 and stamps all its events (possibly several) with the
new version; hence across any operation sequence the version never
decreases, stays non-negative, and the event stream's versions are
non-decreasing (strictly increasing between transactions, equal within
one). -/
theorem c5_version_per_transaction :
    (∀ (s : GroupState) (op : GroupOp),
      ((applyOp s op).1 = s ∧ (applyOp s op).2 = []) ∨
        ((applyOp s op).1.version = s.version + 1 ∧
          ∀ e ∈ (applyOp s op).2, e.ver = (applyOp s op).1.version)) ∧
    (∀ (s : GroupState) (ops : List GroupOp),
      s.version ≤ (runOps s ops).1.version ∧
      (0 ≤ s.version → 0 ≤ (runOps s ops).1.version)) ∧
    (∀ (s : GroupState) (ops : List GroupOp),
      List.Pairwise (fun a b => a.ver ≤ b.ver) (runOps s ops).2) :=
  ⟨applyOp_cases,
   fun s ops => ⟨runOps_version_mono s ops,
     fun h0 => le_trans h0 (runOps_version_mono s ops)⟩,
   runOps_events_sorted⟩

/-- C5 counterexample: resolving spin `"s1"` at the concrete mid-spin state
emits three events (one `spin.resolved` and two `participant.updated`) all
carrying the same version, while the version counter is incremented exactly
once — so the counter is not incremented once per emitted event, and the
versions on one subscription are not strictly increasing. -/
theorem c5_version_shared_by_events_counterexample :
    (applyOp spinningFixture (GroupOp.resolve "s1" 100)).2.map GEvent.ver =
      [4, 4, 4] ∧
    (applyOp spinningFixture (GroupOp.resolve "s1" 100)).1.version =
      spinningFixture.version + 1 ∧
    spinningFixture.version = 3 := by
  refine ⟨?_, ?_, ?_⟩ <;> decide

/-! ## Validator lemmas (commit and roster invariants) -/

theorem validateName_ok (s n : String) (h : validateName s = .ok n) :
    normalizeName n = n ∧ n ≠ "" := by
  unfold validateName at h
  simp only [] at h
  split at h
  · cases h
  · next hcond =>
    cases h
    simp only [decide_eq_true_eq, Bool.or_eq_true, not_or] at hcond
    exact ⟨normalizeName_idem s, hcond.1⟩

theorem validateRemoves_ok (ps : List Participant) :
    ∀ (removes seen out : List String),
      validateRemoves ps removes seen = .ok out →
      out = seen ++ removes ∧
      (∀ r ∈ removes, r ≠ "" ∧ hasParticipantId ps r = true) ∧
      (seen.Nodup → out.Nodup) := by
  intro removes
  induction removes with
  | nil =>
    intro seen out h
    cases h
    exact ⟨by simp, by simp, fun hn => hn⟩
  | cons r rest ih =>
    intro seen out h
    rw [validateRemoves] at h
    split at h
    · cases h
    · split at h
      · cases h
      · split at h
        · cases h
        · next hr hhas hseen =>
          obtain ⟨hout, hall, hnd⟩ := ih (seen ++ [r]) out h
          refine ⟨by simpa [List.append_assoc] using hout, ?_, ?_⟩
          · intro r' hr'
            rcases List.mem_cons.mp hr' with hh | hh
            · subst hh
              exact ⟨hr, by simpa using hhas⟩
            · exact hall r' hh
          · intro hsn
            refine hnd ?_
            rw [List.nodup_append]
            refine ⟨hsn, List.nodup_singleton r, ?_⟩
            intro x hx hx2
            simp only [List.mem_singleton] at hx2
            subst hx2
            exact hseen (by simpa using hx)

theorem commit_ok_validators (s : GroupState) (b : CommitParticipantsBody)
    (newIds : List String) (o : OpOk) (h : commitParticipants s b newIds = .ok o) :
    ∃ updateList added,
      validateRemoves s.participants b.removes [] = .ok b.removes ∧
      validateUpdates s.participants b.removes b.updates [] = .ok updateList ∧
      validateAdds newIds b.adds 0
        ((s.participants.filter (fun p => !b.removes.contains p.id)).map
          (fun p => lowerStr p.name)) [] = .ok added ∧
      o.status = 200 ∧
      o.state = bump { s with
        participants :=
          (s.participants.filter (fun p => !b.removes.contains p.id)).map
            (applyResolvedUpdate updateList) ++ added } ∧
      o.events =
        b.removes.map (fun pid => GEvent.participantRemoved o.state.version pid) ++
        updateList.filterMap (fun u =>
          (o.state.participants.find? (fun p => p.id == u.pid)).map
            (fun p => GEvent.participantUpdated o.state.version p)) ++
        added.map (fun p => GEvent.participantAdded o.state.version p) := by
  unfold commitParticipants at h
  split at h
  · cases h
  · next removeSet hrem =>
    have hset : removeSet = b.removes := by
      simpa using (validateRemoves_ok s.participants b.removes [] removeSet hrem).1
    subst hset
    simp only [] at h
    split at h
    · cases h
    · next updateList hupd =>
      split at h
      · cases h
      · next added hadd =>
        cases h
        exact ⟨updateList, added, hrem, hupd, hadd, rfl, rfl, rfl⟩

theorem validateUpdates_ok (ps : List Participant) (removeSet : List String) :
    ∀ (us : List CommitUpdateEntry) (acc out : List ResolvedUpdate),
      validateUpdates ps removeSet us acc = .ok out →
      out.map ResolvedUpdate.pid =
        acc.map ResolvedUpdate.pid ++ us.map (fun u => u.participantId.getD "") ∧
      (∀ u ∈ us, u.participantId.getD "" ≠ "" ∧
        hasParticipantId ps (u.participantId.getD "") = true ∧
        removeSet.contains (u.participantId.getD "") = false) ∧
      ((acc.map ResolvedUpdate.pid).Nodup → (out.map ResolvedUpdate.pid).Nodup) ∧
      ((∀ e ∈ acc, e.manager = true → e.emailId.isSome = true) →
        ∀ e ∈ out, e.manager = true → e.emailId.isSome = true) := by
  intro us
  induction us with
  | nil =>
    intro acc out h
    cases h
    exact ⟨by simp, by simp, fun x => x, fun x => x⟩
  | cons u rest ih =>
    intro acc out h
    rw [validateUpdates] at h
    split at h
    · cases h
    next hpid =>
    split at h
    · cases h
    next hhas =>
    split at h
    · cases h
    next hrs =>
    split at h
    · cases h
    next hdup =>
    split at h
    · cases h
    next currentParticipant hfind =>
    split at h
    · cases h
    next emailId hemail =>
    split at h
    · cases h
    next hchk =>
    obtain ⟨hmap, hall, hnd, hmgr⟩ := ih _ out h
    refine ⟨?_, ?_, ?_, ?_⟩
    · rw [hmap]
      simp [List.map_append]
    · intro u' hu'
      rcases List.mem_cons.mp hu' with hh | hh
      · subst hh
        refine ⟨hpid, ?_, ?_⟩
        · cases hb : hasParticipantId ps (u'.participantId.getD "")
          · exact absurd (by simp [hb]) hhas
          · rfl
        · cases hb : removeSet.contains (u'.participantId.getD "")
          · rfl
          · exact absurd hb hrs
      · exact hall u' hh
    · intro hacc
      refine hnd ?_
      rw [List.map_append, List.nodup_append]
      refine ⟨hacc, by simp, ?_⟩
      intro x hx hx2
      simp only [List.map_cons, List.map_nil, List.mem_singleton] at hx2
      subst hx2
      refine hdup ?_
      obtain ⟨e, he, hee⟩ := List.mem_map.mp hx
      exact List.any_eq_true.mpr ⟨e, he, by simp [hee]⟩
    · intro hacc
      refine hmgr ?_
      intro e he hem
      rcases List.mem_append.mp he with hh | hh
      · exact hacc e hh hem
      · simp only [List.mem_singleton] at hh
        subst hh
        simp only at hem
        by_cases hn : emailId.isNone = true
        · rw [if_pos hn] at hem
          cases hem
        · rcases emailId with _ | v
          · exact absurd rfl hn
          · rfl

theorem validateUpdates_ok_no_bad_manager (ps : List Participant)
    (removeSet : List String) :
    ∀ (us : List CommitUpdateEntry) (acc out : List ResolvedUpdate),
      validateUpdates ps removeSet us acc = .ok out →
      ∀ u ∈ us, ∀ p, ps.find? (fun q => q.id == u.participantId.getD "") = some p →
        (match u.emailId with
         | some e => normalizeEmailId (some e)
         | none => (.ok p.emailId : Except String (Option String))) = .ok none →
        u.manager.getD p.manager = false := by
  intro us
  induction us with
  | nil =>
    intro acc out h u hu
    cases hu
  | cons u0 rest ih =>
    intro acc out h u hu p hfindp hresolved
    rw [validateUpdates] at h
    split at h
    · cases h
    next hpid =>
    split at h
    · cases h
    next hhas =>
    split at h
    · cases h
    next hrs =>
    split at h
    · cases h
    next hdup =>
    split at h
    · cases h
    next currentParticipant hfind =>
    split at h
    · cases h
    next emailId hemail =>
    split at h
    · cases h
    next hchk =>
    rcases List.mem_cons.mp hu with hh | hh
    · subst hh
      have hp : p = currentParticipant := by
        rw [hfindp] at hfind
        cases hfind
        rfl
      subst hp
      have hnone : emailId = none := by
        rw [hresolved] at hemail
        cases hemail
        rfl
      subst hnone
      by_contra hmt
      have hmt2 : u.manager.getD p.manager = true := by
        cases hres : u.manager.getD p.manager
        · exact absurd hres hmt
        · rfl
      exact hchk (by simp [hmt2])
    · exact ih _ out h u hh p hfindp hresolved

theorem validateAdds_ok (newIds : List String) :
    ∀ (adds : List CommitAddEntry) (i : Nat) (names : List String)
      (acc out : List Participant),
      validateAdds newIds adds i names acc = .ok out →
      ∃ newPs, out = acc ++ newPs ∧ newPs.length = adds.length ∧
        (∀ p ∈ newPs, p.active = true ∧ p.spinsSinceLastWon = 0 ∧
          (p.manager = true → p.emailId.isSome = true) ∧
          normalizeName p.name = p.name) ∧
        (names.Nodup → (names ++ newPs.map (fun p => lowerStr p.name)).Nodup) := by
  intro adds
  induction adds with
  | nil =>
    intro i names acc out h
    cases h
    exact ⟨[], by simp, rfl, by simp, by simpa using fun hn => hn⟩
  | cons a rest ih =>
    intro i names acc out h
    rw [validateAdds] at h
    split at h
    · cases h
    next name hname =>
    split at h
    · cases h
    next hcon =>
    split at h
    · cases h
    next emailId hemail =>
    split at h
    · cases h
    next hchk =>
    obtain ⟨newPs', hout, hlen, hprops, hnodup⟩ := ih _ _ _ out h
    refine ⟨({ id := newIds.getD i "", name := name, active := true,
               emailId := emailId, manager := a.manager == some true,
               spinsSinceLastWon := 0 } : Participant) :: newPs',
      ?_, by simp [hlen], ?_, ?_⟩
    · rw [hout]
      simp
    · intro p hp
      rcases List.mem_cons.mp hp with hh | hh
      · subst hh
        refine ⟨rfl, rfl, ?_, (validateName_ok _ _ hname).1⟩
        intro hm
        simp only at hm
        rcases emailId with _ | v
        · exact absurd (by simp [hm]) hchk
        · rfl
      · exact hprops p hh
    · intro hn
      have hlow : lowerStr name ∉ names := by
        intro hmem
        exact hcon (by simpa using hmem)
      have hn2 : (names ++ [lowerStr name]).Nodup := by
        rw [List.nodup_append]
        refine ⟨hn, List.nodup_singleton _, ?_⟩
        intro x hx hx2
        simp only [List.mem_singleton] at hx2
        subst hx2
        exact hlow hx
      have hq := hnodup hn2
      simpa [List.append_assoc] using hq

theorem validateAdds_ok_not_contains (newIds : List String) :
    ∀ (adds : List CommitAddEntry) (i : Nat) (names : List String)
      (acc out : List Participant),
      validateAdds newIds adds i names acc = .ok out →
      ∀ a ∈ adds, ∀ n, validateName (a.name.getD "") = .ok n →
        names.contains (lowerStr n) = false := by
  intro adds
  induction adds with
  | nil =>
    intro i names acc out h a ha
    cases ha
  | cons a0 rest ih =>
    intro i names acc out h a ha n hn
    rw [validateAdds] at h
    split at h
    · cases h
    next name hname =>
    split at h
    · cases h
    next hcon =>
    split at h
    · cases h
    next emailId hemail =>
    split at h
    · cases h
    next hchk =>
    rcases List.mem_cons.mp ha with hh | hh
    · subst hh
      have hsame : n = name := by
        rw [hname] at hn
        cases hn
        rfl
      subst hsame
      simpa using hcon
    · have hrest := ih _ _ _ out h a hh n hn
      have hnm : lowerStr n ∉ names ++ [lowerStr name] := by
        simpa using hrest
      simp only [List.mem_append, not_or] at hnm
      simpa using hnm.1

theorem validateAdds_ok_no_bad_manager (newIds : List String) :
    ∀ (adds : List CommitAddEntry) (i : Nat) (names : List String)
      (acc out : List Participant),
      validateAdds newIds adds i names acc = .ok out →
      ∀ a ∈ adds, a.manager = some true → normalizeEmailId a.emailId ≠ .ok none := by
  intro adds
  induction adds with
  | nil =>
    intro i names acc out h a ha
    cases ha
  | cons a0 rest ih =>
    intro i names acc out h a ha hmgr hbad
    rw [validateAdds] at h
    split at h
    · cases h
    next name hname =>
    split at h
    · cases h
    next hcon =>
    split at h
    · cases h
    next emailId hemail =>
    split at h
    · cases h
    next hchk =>
    rcases List.mem_cons.mp ha with hh | hh
    · subst hh
      have hnone : emailId = none := by
        rw [hbad] at hemail
        cases hemail
        rfl
      subst hnone
      exact hchk (by simp [hmgr])
    · exact ih _ _ _ out h a hh hmgr hbad

theorem applyResolvedUpdate_id (ul : List ResolvedUpdate) (p : Participant) :
    (applyResolvedUpdate ul p).id = p.id := by
  unfold applyResolvedUpdate
  split <;> rfl

theorem isSome_map {α β : Type} (f : α → β) (x : Option α) :
    (x.map f).isSome = x.isSome := by
  cases x <;> rfl

theorem filterMap_length_of_isSome {α β : Type} (f : α → Option β) :
    ∀ l : List α, (∀ a ∈ l, (f a).isSome = true) →
      (l.filterMap f).length = l.length := by
  intro l
  induction l with
  | nil => simp
  | cons a rest ih =>
    intro h
    rcases hf : f a with _ | b
    · exact absurd (h a (by simp)) (by simp [hf])
    · rw [List.filterMap_cons]
      rw [hf]
      simpa using ih (fun x hx => h x (by simp [hx]))

theorem validateAdds_ok_add_names_nodup (newIds : List String) :
    ∀ (adds : List CommitAddEntry) (i : Nat) (names : List String)
      (acc out : List Participant),
      validateAdds newIds adds i names acc = .ok out →
      (adds.map (fun a => (validateName (a.name.getD "")).map lowerStr)).Nodup ∧
      (∀ a ∈ adds, ∀ n, validateName (a.name.getD "") = .ok n →
        lowerStr n ∉ names) := by
  intro adds
  induction adds with
  | nil =>
    intro i names acc out h
    exact ⟨List.nodup_nil, by simp⟩
  | cons a rest ih =>
    intro i names acc out h
    rw [validateAdds] at h
    split at h
    · cases h
    next name hname =>
    split at h
    · cases h
    next hcon =>
    split at h
    · cases h
    next emailId hemail =>
    split at h
    · cases h
    next hchk =>
    obtain ⟨hnd, hnotin⟩ := ih _ _ _ out h
    refine ⟨?_, ?_⟩
    · rw [List.map_cons, List.nodup_cons]
      refine ⟨?_, hnd⟩
      intro hmem
      obtain ⟨a2, ha2, hfa⟩ := List.mem_map.mp hmem
      rw [hname] at hfa
      rcases hv : validateName (a2.name.getD "") with m | n2
      · rw [hv] at hfa
        cases hfa
      · rw [hv] at hfa
        simp only [Except.map, Except.ok.injEq] at hfa
        have h2 := hnotin a2 ha2 n2 hv
        rw [hfa] at h2
        exact h2 (by simp)
    · intro a2 ha2 n hv
      rcases List.mem_cons.mp ha2 with hh | hh
      · subst hh
        rw [hname] at hv
        cases hv
        intro hmem2
        exact hcon (by simpa using hmem2)
      · intro hmem2
        exact hnotin a2 hh n hv (by simp [hmem2])

theorem find_in_commit_participants (s : GroupState) (removes : List String)
    (ul : List ResolvedUpdate) (added : List Participant) (pid : String)
    (hhas : hasParticipantId s.participants pid = true)
    (hnr : removes.contains pid = false) :
    (((s.participants.filter (fun p => !removes.contains p.id)).map
        (applyResolvedUpdate ul) ++ added).find?
      (fun p => p.id == pid)).isSome = true := by
  unfold hasParticipantId at hhas
  obtain ⟨q, hq, hqid⟩ := List.any_eq_true.mp hhas
  have hqid2 : q.id = pid := by simpa using hqid
  have hmem : applyResolvedUpdate ul q ∈
      (s.participants.filter (fun p => !removes.contains p.id)).map
        (applyResolvedUpdate ul) ++ added := by
    refine List.mem_append_left _ ?_
    refine List.mem_map_of_mem _ (List.mem_filter.mpr ⟨hq, ?_⟩)
    rw [hqid2, hnr]
    rfl
  have hsome : (((s.participants.filter (fun p => !removes.contains p.id)).map
      (applyResolvedUpdate ul) ++ added).find?
        (fun p => p.id == pid)).isSome = true := by
    refine List.find?_isSome.mpr ⟨applyResolvedUpdate ul q, hmem, ?_⟩
    rw [applyResolvedUpdate_id, hqid2]
    simp
  exact hsome

/-! ## C6 — atomic roster commit -/

/-- C6: `commitParticipants` is atomic. Every listed validation failure
(missing or duplicated remove id, missing/duplicated/also-removed update id,
case-insensitive name collision of an add against the post-remove surviving
names, case-insensitive name collision between two adds (their validated
lowercased names are not pairwise distinct), or a resolved manager=true
entry without an email) rejects the whole request; a rejected request
persists nothing and emits nothing; and a successful request applies
removes, then updates, then adds in that order and emits one
`participant.removed` per remove, one `participant.updated` per update, and
one `participant.added` per add, in that order, all stamped with the single
bumped version. -/
theorem c6_commitParticipants_atomic :
    ∀ (s : GroupState) (b : CommitParticipantsBody) (newIds : List String),
    ((∃ r ∈ b.removes, hasParticipantId s.participants r = false) →
      (commitParticipants s b newIds).isOk = false) ∧
    (¬ b.removes.Nodup → (commitParticipants s b newIds).isOk = false) ∧
    ((∃ u ∈ b.updates,
        hasParticipantId s.participants (u.participantId.getD "") = false) →
      (commitParticipants s b newIds).isOk = false) ∧
    (¬ (b.updates.map (fun u => u.participantId.getD "")).Nodup →
      (commitParticipants s b newIds).isOk = false) ∧
    ((∃ u ∈ b.updates, b.removes.contains (u.participantId.getD "") = true) →
      (commitParticipants s b newIds).isOk = false) ∧
    ((∃ a ∈ b.adds, ∃ n, validateName (a.name.getD "") = .ok n ∧
        ((s.participants.filter (fun p => !b.removes.contains p.id)).map
          (fun p => lowerStr p.name)).contains (lowerStr n) = true) →
      (commitParticipants s b newIds).isOk = false) ∧
    (¬ (b.adds.map (fun a =>
        (validateName (a.name.getD "")).map lowerStr)).Nodup →
      (commitParticipants s b newIds).isOk = false) ∧
    ((∃ a ∈ b.adds, a.manager = some true ∧
        normalizeEmailId a.emailId = .ok none) →
      (commitParticipants s b newIds).isOk = false) ∧
    ((∃ u ∈ b.updates, ∃ p,
        s.participants.find? (fun q => q.id == u.participantId.getD "") = some p ∧
        (match u.emailId with
         | some e => normalizeEmailId (some e)
         | none => (.ok p.emailId : Except String (Option String))) = .ok none ∧
        u.manager.getD p.manager = true) →
      (commitParticipants s b newIds).isOk = false) ∧
    (∀ e, commitParticipants s b newIds = .error e →
      stepResult s (commitParticipants s b newIds) = (s, [])) ∧
    (∀ o, commitParticipants s b newIds = .ok o →
      o.status = 200 ∧ o.state.version = s.version + 1 ∧
      ∃ updateList added,
        o.state.participants =
          (s.participants.filter (fun p => !b.removes.contains p.id)).map
            (applyResolvedUpdate updateList) ++ added ∧
        updateList.map ResolvedUpdate.pid =
          b.updates.map (fun u => u.participantId.getD "") ∧
        added.length = b.adds.length ∧
        (∀ p ∈ added, p.active = true ∧ p.spinsSinceLastWon = 0) ∧
        ∃ updEvs,
          o.events =
            b.removes.map
              (fun pid => GEvent.participantRemoved o.state.version pid) ++
              updEvs ++
              added.map (fun p => GEvent.participantAdded o.state.version p) ∧
          updEvs.length = b.updates.length ∧
          (∀ e ∈ updEvs, ∃ p, e = GEvent.participantUpdated o.state.version p)) := by
  intro s b newIds
  refine ⟨?_, ?_, ?_, ?_, ?_, ?_, ?_, ?_, ?_, ?_, ?_⟩
  · rintro ⟨r, hr, hmiss⟩
    rcases h : commitParticipants s b newIds with e | o
    · rfl
    · obtain ⟨ul, ad, hrem, -⟩ := commit_ok_validators s b newIds o h
      have h2 := (validateRemoves_ok s.participants b.removes [] b.removes hrem).2.1 r hr
      exact absurd h2.2 (by simp [hmiss])
  · intro hdup
    rcases h : commitParticipants s b newIds with e | o
    · rfl
    · obtain ⟨ul, ad, hrem, -⟩ := commit_ok_validators s b newIds o h
      exact absurd ((validateRemoves_ok s.participants b.removes [] b.removes hrem).2.2
        List.nodup_nil) hdup
  · rintro ⟨u, hu, hmiss⟩
    rcases h : commitParticipants s b newIds with e | o
    · rfl
    · obtain ⟨ul, ad, hrem, hupd, -⟩ := commit_ok_validators s b newIds o h
      have h2 := ((validateUpdates_ok s.participants b.removes b.updates [] ul hupd).2.1
        u hu).2.1
      exact absurd h2 (by simp [hmiss])
  · intro hdup
    rcases h : commitParticipants s b newIds with e | o
    · rfl
    · obtain ⟨ul, ad, hrem, hupd, -⟩ := commit_ok_validators s b newIds o h
      have hok := validateUpdates_ok s.participants b.removes b.updates [] ul hupd
      have hnd := hok.2.2.1 (by simp)
      rw [hok.1] at hnd
      exact absurd (by simpa using hnd) hdup
  · rintro ⟨u, hu, hmem⟩
    rcases h : commitParticipants s b newIds with e | o
    · rfl
    · obtain ⟨ul, ad, hrem, hupd, -⟩ := commit_ok_validators s b newIds o h
      have h2 := ((validateUpdates_ok s.participants b.removes b.updates [] ul hupd).2.1
        u hu).2.2
      rw [h2] at hmem
      simp at hmem
  · rintro ⟨a, ha, n, hvn, hcont⟩
    rcases h : commitParticipants s b newIds with e | o
    · rfl
    · obtain ⟨ul, ad, hrem, hupd, hadd, -⟩ := commit_ok_validators s b newIds o h
      have h2 := validateAdds_ok_not_contains newIds b.adds 0 _ [] ad hadd a ha n hvn
      rw [h2] at hcont
      simp at hcont
  · intro hdup
    rcases h : commitParticipants s b newIds with e | o
    · rfl
    · obtain ⟨ul, ad, hrem, hupd, hadd, -⟩ := commit_ok_validators s b newIds o h
      exact absurd
        (validateAdds_ok_add_names_nodup newIds b.adds 0 _ [] ad hadd).1 hdup
  · rintro ⟨a, ha, hm, hbad⟩
    rcases h : commitParticipants s b newIds with e | o
    · rfl
    · obtain ⟨ul, ad, hrem, hupd, hadd, -⟩ := commit_ok_validators s b newIds o h
      exact absurd hbad
        (validateAdds_ok_no_bad_manager newIds b.adds 0 _ [] ad hadd a ha hm)
  · rintro ⟨u, hu, p, hfind, hres, hmgr⟩
    rcases h : commitParticipants s b newIds with e | o
    · rfl
    · obtain ⟨ul, ad, hrem, hupd, -⟩ := commit_ok_validators s b newIds o h
      have h2 := validateUpdates_ok_no_bad_manager s.participants b.removes
        b.updates [] ul hupd u hu p hfind hres
      exact absurd hmgr (by simp [h2])
  · intro e he
    simp [stepResult, he]
  · intro o ho
    obtain ⟨ul, ad, hrem, hupd, hadd, hstat, hstate, hevents⟩ :=
      commit_ok_validators s b newIds o ho
    have hupdok := validateUpdates_ok s.participants b.removes b.updates [] ul hupd
    obtain ⟨newPs, hnew, hlen, hprops, -⟩ :=
      validateAdds_ok newIds b.adds 0 _ [] ad hadd
    rw [List.nil_append] at hnew
    subst hnew
    have hulpids : ul.map ResolvedUpdate.pid =
        b.updates.map (fun u => u.participantId.getD "") := by
      simpa using hupdok.1
    refine ⟨hstat, by rw [hstate]; rfl, ul, ad, by rw [hstate]; rfl, hulpids, hlen,
      fun p hp => ⟨(hprops p hp).1, (hprops p hp).2.1⟩, ?_⟩
    refine ⟨ul.filterMap (fun u =>
      (o.state.participants.find? (fun p => p.id == u.pid)).map
        (fun p => GEvent.participantUpdated o.state.version p)), hevents, ?_, ?_⟩
    · refine filterMap_length_of_isSome _ ul ?_ |>.trans ?_
      · intro u hu
        have hmem : u.pid ∈ b.updates.map (fun u => u.participantId.getD "") := by
          rw [← hulpids]
          exact List.mem_map_of_mem _ hu
        obtain ⟨u', hu', hpe⟩ := List.mem_map.mp hmem
        have hfacts := (hupdok.2.1 u' hu')
        rw [hpe] at hfacts
        rw [isSome_map, hstate]
        exact find_in_commit_participants s b.removes ul ad u.pid
          hfacts.2.1 hfacts.2.2
      · have hl := congrArg List.length hulpids
        simpa using hl
    · intro e he
      obtain ⟨u, hu, hue⟩ := List.mem_filterMap.mp he
      obtain ⟨p, hfind2, hpe⟩ := Option.map_eq_some'.mp hue
      exact ⟨p, hpe.symm⟩

/-! ## C7 — roster invariants -/

theorem applyResolvedUpdate_name (ul : List ResolvedUpdate) (p : Participant) :
    (applyResolvedUpdate ul p).name = p.name := by
  unfold applyResolvedUpdate
  split <;> rfl

theorem applyResolvedUpdate_manager (ul : List ResolvedUpdate) (p : Participant)
    (hul : ∀ e ∈ ul, e.manager = true → e.emailId.isSome = true)
    (hp : p.manager = true → p.emailId.isSome = true) :
    (applyResolvedUpdate ul p).manager = true →
      (applyResolvedUpdate ul p).emailId.isSome = true := by
  unfold applyResolvedUpdate
  split
  · next u hu => exact hul u (List.mem_of_find?_eq_some hu)
  · next => exact hp

theorem replaceFirst_map_nameKey (ps : List Participant) (pid : String)
    (q pa : Participant) (hfind : ps.find? (fun p => p.id == pid) = some pa)
    (hname : q.name = pa.name) :
    (replaceFirst ps pid q).map nameKey = ps.map nameKey := by
  induction ps with
  | nil => cases hfind
  | cons p rest ih =>
    rw [replaceFirst]
    by_cases hp : (p.id == pid) = true
    · rw [if_pos hp]
      rw [List.find?_cons_of_pos] at hfind
      · cases hfind
        simp only [List.map_cons]
        unfold nameKey
        rw [hname]
      · exact hp
    · rw [if_neg hp]
      rw [List.find?_cons_of_neg] at hfind
      · simp only [List.map_cons]
        rw [ih hfind]
      · simpa using hp

theorem mem_replaceFirst (ps : List Participant) (pid : String) (q x : Participant)
    (hx : x ∈ replaceFirst ps pid q) : x = q ∨ x ∈ ps := by
  induction ps with
  | nil => cases hx
  | cons p rest ih =>
    rw [replaceFirst] at hx
    by_cases hp : (p.id == pid) = true
    · rw [if_pos hp] at hx
      rcases List.mem_cons.mp hx with h | h
      · exact Or.inl h
      · exact Or.inr (List.mem_cons_of_mem _ h)
    · rw [if_neg hp] at hx
      rcases List.mem_cons.mp hx with h | h
      · exact Or.inr (h ▸ List.mem_cons_self _ _)
      · rcases ih h with h2 | h2
        · exact Or.inl h2
        · exact Or.inr (List.mem_cons_of_mem _ h2)

theorem addParticipant_ok_shape (s : GroupState) (b : AddParticipantBody)
    (newId : String) (o : OpOk) (h : addParticipant s b newId = .ok o) :
    ∃ name emailId,
      validateName (b.name.getD "") = .ok name ∧
      ((b.manager == some true) = true → emailId.isNone = false) ∧
      s.participants.any (fun p => lowerStr p.name == lowerStr name) = false ∧
      o.state.participants = s.participants ++
        [{ id := newId, name := name, active := true, emailId := emailId,
           manager := b.manager == some true, spinsSinceLastWon := 0 }] := by
  unfold addParticipant at h
  split at h
  · cases h
  next name hname =>
  split at h
  · cases h
  next emailId hemail =>
  simp only [] at h
  split at h
  · cases h
  next hchk =>
  split at h
  · cases h
  next hdup =>
  cases h
  refine ⟨name, emailId, hname, ?_, ?_, rfl⟩
  · intro hm
    cases hn : emailId.isNone
    · rfl
    · exact absurd (by simp [hm, hn]) hchk
  · cases hb : s.participants.any (fun p => lowerStr p.name == lowerStr name)
    · rfl
    · exact absurd hb hdup

theorem updateParticipant_ok_participants (s : GroupState) (pid : String)
    (b : UpdateParticipantBody) (o : OpOk)
    (h : updateParticipant s pid b = .ok o) :
    ∃ pa q,
      s.participants.find? (fun p => p.id == pid) = some pa ∧
      q.name = pa.name ∧
      (q.manager = true → q.emailId.isSome = true) ∧
      o.state.participants = replaceFirst s.participants pid q := by
  unfold updateParticipant at h
  split at h
  · cases h
  split at h
  · cases h
  split at h
  · cases h
  next pa hfind =>
  simp only [] at h
  split at h
  · cases h
  next emailVal hemail =>
  split at h
  · cases h
  next hchk =>
  cases h
  refine ⟨pa, _, hfind, ?_, ?_, rfl⟩
  · rcases b.manager with _ | m <;> rcases b.active with _ | a <;> split <;> rfl
  · rcases b.manager with _ | m <;> rcases b.active with _ | a <;>
      (split
       · intro hm
         exact Bool.noConfusion hm
       · next hn =>
         intro hm2
         have hn2 : emailVal.isNone ≠ true := hn
         show emailVal.isSome = true
         rcases emailVal with _ | v
         · exact absurd rfl hn2
         · rfl)

theorem removeParticipant_ok_participants (s : GroupState) (pid : String)
    (o : OpOk) (h : removeParticipant s pid = .ok o) :
    o.state.participants = s.participants.filter (fun p => p.id != pid) := by
  unfold removeParticipant at h
  split at h
  · cases h
  simp only [] at h
  split at h
  · cases h
  cases h
  rfl

/-- C7 (corrected): every roster operation preserves the roster invariant —
names stored in trimmed-and-collapsed form and pairwise distinct under
case-folded comparison, and `manager = true` only with an email — and `init`
establishes it; but a PATCH that clears the email of a participant whose
resolved manager flag is true is rejected with
`400 manager requires a valid emailId.` rather than forcing `manager` to
false (the forcing branch runs only when the manager flag is already
false). -/
theorem c7_roster_invariants :
    (∀ g p0 o, initGroup g p0 = .ok o → ParticipantsInv o.state.participants) ∧
    (∀ s b newId o, ParticipantsInv s.participants →
      addParticipant s b newId = .ok o → ParticipantsInv o.state.participants) ∧
    (∀ s pid b o, ParticipantsInv s.participants →
      updateParticipant s pid b = .ok o → ParticipantsInv o.state.participants) ∧
    (∀ s pid o, ParticipantsInv s.participants →
      removeParticipant s pid = .ok o → ParticipantsInv o.state.participants) ∧
    (∀ s b newIds o, ParticipantsInv s.participants →
      commitParticipants s b newIds = .ok o →
      ParticipantsInv o.state.participants) ∧
    (∀ s pid b pa, pid ≠ "" →
      s.participants.find? (fun p => p.id == pid) = some pa →
      b.emailId = some none → b.manager.getD pa.manager = true →
      updateParticipant s pid b =
        .error ⟨400, "manager requires a valid emailId."⟩) := by
  refine ⟨?_, ?_, ?_, ?_, ?_, ?_⟩
  · intro g p0 o h
    unfold initGroup at h
    split at h
    · cases h
    cases h
    unfold ParticipantsInv
    exact ⟨List.nodup_nil, by simp, by simp⟩
  · intro s b newId o hinv h
    obtain ⟨name, emailId, hname, hchk, hdup, hps⟩ :=
      addParticipant_ok_shape s b newId o h
    unfold ParticipantsInv at hinv ⊢
    obtain ⟨hnd, hmgr, hnorm⟩ := hinv
    have hnn := (validateName_ok _ _ hname).1
    rw [hps]
    refine ⟨?_, ?_, ?_⟩
    · rw [List.map_append, List.nodup_append]
      refine ⟨hnd, by simp, ?_⟩
      intro x hx hx2
      simp only [List.map_cons, List.map_nil, List.mem_singleton] at hx2
      obtain ⟨p, hp, hpe⟩ := List.mem_map.mp hx
      subst hx2
      have hkey : nameKey p = lowerStr p.name := by
        unfold nameKey
        rw [hnorm p hp]
      have hkey2 : nameKey ⟨newId, name, true, emailId,
          b.manager == some true, 0⟩ = lowerStr name := by
        unfold nameKey
        simp only []
        rw [hnn]
      rw [hkey2] at hpe
      have : s.participants.any (fun p => lowerStr p.name == lowerStr name) = true :=
        List.any_eq_true.mpr ⟨p, hp, by rw [hkey] at hpe; simp [hpe]⟩
      rw [this] at hdup
      cases hdup
    · intro p hp hpm
      rcases List.mem_append.mp hp with h2 | h2
      · exact hmgr p h2 hpm
      · simp only [List.mem_singleton] at h2
        subst h2
        simp only [] at hpm
        cases hn : emailId
        · rw [hn] at hchk
          cases hchk hpm
        · rfl
    · intro p hp
      rcases List.mem_append.mp hp with h2 | h2
      · exact hnorm p h2
      · simp only [List.mem_singleton] at h2
        subst h2
        exact hnn
  · intro s pid b o hinv h
    obtain ⟨pa, q, hfind, hqname, hqmgr, hps⟩ :=
      updateParticipant_ok_participants s pid b o h
    unfold ParticipantsInv at hinv ⊢
    obtain ⟨hnd, hmgr, hnorm⟩ := hinv
    have hpa := List.mem_of_find?_eq_some hfind
    rw [hps]
    refine ⟨?_, ?_, ?_⟩
    · rw [replaceFirst_map_nameKey s.participants pid q pa hfind hqname]
      exact hnd
    · intro p hp hpm
      rcases mem_replaceFirst _ _ _ _ hp with h2 | h2
      · subst h2
        exact hqmgr hpm
      · exact hmgr p h2 hpm
    · intro p hp
      rcases mem_replaceFirst _ _ _ _ hp with h2 | h2
      · subst h2
        rw [hqname]
        exact hnorm pa hpa
      · exact hnorm p h2
  · intro s pid o hinv h
    unfold ParticipantsInv at hinv ⊢
    obtain ⟨hnd, hmgr, hnorm⟩ := hinv
    rw [removeParticipant_ok_participants s pid o h]
    refine ⟨?_, ?_, ?_⟩
    · exact ((List.filter_sublist s.participants).map nameKey).nodup hnd
    · intro p hp hpm
      exact hmgr p (List.mem_of_mem_filter hp) hpm
    · intro p hp
      exact hnorm p (List.mem_of_mem_filter hp)
  · intro s b newIds o hinv h
    obtain ⟨ul, ad, hrem, hupd, hadd, hstat, hstate, hevs⟩ :=
      commit_ok_validators s b newIds o h
    unfold ParticipantsInv at hinv ⊢
    obtain ⟨hnd, hmgr, hnorm⟩ := hinv
    have hulmgr : ∀ e ∈ ul, e.manager = true → e.emailId.isSome = true :=
      (validateUpdates_ok s.participants b.removes b.updates [] ul hupd).2.2.2
        (by simp)
    obtain ⟨newPs, hout, hlen, hprops, hnodup⟩ :=
      validateAdds_ok newIds b.adds 0 _ [] ad hadd
    rw [List.nil_append] at hout
    subst hout
    have hps : o.state.participants =
        (s.participants.filter (fun p => !b.removes.contains p.id)).map
          (applyResolvedUpdate ul) ++ ad := by
      rw [hstate]
      rfl
    rw [hps]
    have hsurvmem : ∀ p ∈ s.participants.filter
        (fun p => !b.removes.contains p.id), p ∈ s.participants :=
      fun p hp => List.mem_of_mem_filter hp
    refine ⟨?_, ?_, ?_⟩
    · rw [List.map_append, List.map_map]
      have e1 : (s.participants.filter (fun p => !b.removes.contains p.id)).map
          (nameKey ∘ applyResolvedUpdate ul) =
          (s.participants.filter (fun p => !b.removes.contains p.id)).map
            (fun p => lowerStr p.name) := by
        refine List.map_congr_left ?_
        intro p hp
        simp only [Function.comp]
        unfold nameKey
        rw [applyResolvedUpdate_name, hnorm p (hsurvmem p hp)]
      have e2 : ad.map nameKey = ad.map (fun p => lowerStr p.name) := by
        refine List.map_congr_left ?_
        intro p hp
        unfold nameKey
        rw [(hprops p hp).2.2.2]
      rw [e1, e2]
      have hnames1 : (s.participants.filter
          (fun p => !b.removes.contains p.id)).map (fun p => lowerStr p.name) =
          (s.participants.filter (fun p => !b.removes.contains p.id)).map
            nameKey := by
        refine List.map_congr_left ?_
        intro p hp
        unfold nameKey
        rw [hnorm p (hsurvmem p hp)]
      refine hnodup ?_
      rw [hnames1]
      exact ((List.filter_sublist s.participants).map nameKey).nodup hnd
    · intro p hp hpm
      rcases List.mem_append.mp hp with h2 | h2
      · obtain ⟨p0, hp0, hpe⟩ := List.mem_map.mp h2
        subst hpe
        exact applyResolvedUpdate_manager ul p0 hulmgr
          (hmgr p0 (hsurvmem p0 hp0)) hpm
      · exact (hprops p h2).2.2.1 hpm
    · intro p hp
      rcases List.mem_append.mp hp with h2 | h2
      · obtain ⟨p0, hp0, hpe⟩ := List.mem_map.mp h2
        subst hpe
        rw [applyResolvedUpdate_name]
        exact hnorm p0 (hsurvmem p0 hp0)
      · exact (hprops p h2).2.2.2
  · intro s pid b pa hpid hfind hemail hm
    unfold updateParticipant
    rw [if_neg hpid, hemail, hfind]
    rcases hbm : b.manager with _ | m <;> rcases hba : b.active with _ | a <;>
      rw [hbm] at hm <;>
      simp only [Option.getD_some, Option.getD_none] at hm <;>
      simp [normalizeEmailId, hm, hbm, hba]

/-- C7 counterexample to the original claim: `"p1"` in `idleFixture` is a
manager with an email; a PATCH that clears its email (and does not touch
`manager`) is rejected with `400 manager requires a valid emailId.` instead
of succeeding with `manager` forced to false. -/
theorem c7_email_clear_rejected_counterexample :
    (idleFixture.participants.find? (fun p => p.id == "p1")).map
        (fun p => (p.manager, p.emailId.isSome)) = some (true, true) ∧
    updateParticipant idleFixture "p1"
      { active := none, emailId := some none, manager := none } =
      .error ⟨400, "manager requires a valid emailId."⟩ := by
  exact ⟨by decide, by decide⟩

end TheUnfairWheel
